import Mathlib

/- Verification of the distributed key-value store in src/kvstore.cpp.

   The C++ source is shallowly embedded:
   - `std::map<uint32_t, std::string>` (the hash ring) becomes a sorted
     association list of (token, node-id) pairs;
   - `std::set<std::string>` becomes a list kept sorted by the lexicographic
     order on strings (`strLt`, matching `std::string::operator<`);
   - `std::unordered_map` becomes an association list (iteration order fixed
     to insertion order) or, for key-only indices, a `Finset`;
   - `std::hash<std::string>` is an uninterpreted parameter
     `hasher : String → Nat`, truncated with `% 2^32` exactly where the code
     converts to `uint32_t`;
   - the WAL file is a `List Char`, the stream health a `Bool` (a C++
     `ofstream` in a failed state silently discards writes). -/

/-! ## Lexicographic string order, as used by std::set<std::string> -/

/-- Strict lexicographic comparison of character lists,
    mirroring `std::string::operator<`. -/
def listLt : List Char → List Char → Bool
  | [], [] => false
  | [], _ :: _ => true
  | _ :: _, [] => false
  | a :: as, b :: bs => if a < b then true else if b < a then false else listLt as bs

/-- Strict lexicographic comparison of strings. -/
def strLt (a b : String) : Bool := listLt a.toList b.toList

theorem listLt_irrefl (a : List Char) : listLt a a = false := by
  induction a with
  | nil => rfl
  | cons x xs ih => simp [listLt, ih]

theorem listLt_trans {a b c : List Char} (h1 : listLt a b = true)
    (h2 : listLt b c = true) : listLt a c = true := by
  induction a generalizing b c with
  | nil =>
    cases c with
    | nil =>
      cases b with
      | nil => exact h1
      | cons y ys => simp [listLt] at h2
    | cons z zs => simp [listLt]
  | cons x xs ih =>
    cases b with
    | nil => simp [listLt] at h1
    | cons y ys =>
      cases c with
      | nil => simp [listLt] at h2
      | cons z zs =>
        simp only [listLt] at h1 h2 ⊢
        rcases lt_trichotomy x y with hxy | hxy | hxy
        · rcases lt_trichotomy y z with hyz | hyz | hyz
          · simp [lt_trans hxy hyz]
          · subst hyz; simp [hxy]
          · simp [hyz, not_lt_of_gt hyz] at h2
        · subst hxy
          rcases lt_trichotomy x z with hxz | hxz | hxz
          · simp [hxz]
          · subst hxz
            simp [lt_irrefl] at h1 h2 ⊢
            exact ih h1 h2
          · simp [hxz, not_lt_of_gt hxz] at h2
        · simp [hxy, not_lt_of_gt hxy] at h1

theorem listLt_total_eq {a b : List Char} (h1 : listLt a b = false)
    (h2 : listLt b a = false) : a = b := by
  induction a generalizing b with
  | nil =>
    cases b with
    | nil => rfl
    | cons y ys => simp [listLt] at h1
  | cons x xs ih =>
    cases b with
    | nil => simp [listLt] at h2
    | cons y ys =>
      simp only [listLt] at h1 h2
      rcases lt_trichotomy x y with hxy | hxy | hxy
      · simp [hxy] at h1
      · subst hxy
        simp [lt_irrefl] at h1 h2
        rw [ih h1 h2]
      · simp [hxy] at h2

theorem strLt_irrefl (a : String) : strLt a a = false := listLt_irrefl _

theorem strLt_trans {a b c : String} (h1 : strLt a b = true)
    (h2 : strLt b c = true) : strLt a c = true := listLt_trans h1 h2

theorem strLt_total_eq {a b : String} (h1 : strLt a b = false)
    (h2 : strLt b a = false) : a = b := by
  have := listLt_total_eq h1 h2
  cases a; cases b
  simpa [String.toList] using congrArg String.mk this

theorem strLt_asymm {a b : String} (h : strLt a b = true) : strLt b a = false := by
  by_contra hc
  have hba : strLt b a = true := by
    cases hb : strLt b a
    · exact absurd hb hc
    · rfl
  have := strLt_trans h hba
  rw [strLt_irrefl] at this
  exact Bool.false_ne_true this

/-! ## The consistent hash ring (class ConsistentHash)

The C++ ring is `std::map<uint32_t, std::string>`, modelled as an
association list sorted by strictly increasing token. -/

abbrev Token := Nat

/-- The modulus applied when a hash value is stored into a `uint32_t`. -/
def M32 : Nat := 2 ^ 32

namespace ConsistentHash

/-- Insert-or-overwrite into the sorted token map, as `ring[hash] = node`. -/
def ringInsert : List (Token × String) → Token → String → List (Token × String)
  | [], t, v => [(t, v)]
  | (t1, v1) :: r, t, v =>
    if t < t1 then (t, v) :: (t1, v1) :: r
    else if t = t1 then (t, v) :: r
    else (t1, v1) :: ringInsert r t v

/-- Erase a token from the map, as `ring.erase(hash)`. -/
def ringErase (r : List (Token × String)) (t : Token) : List (Token × String) :=
  r.filter (fun e => decide (e.1 ≠ t))

/-- The tokens of one node: hashes of node-id concatenated with 0..vn-1,
    truncated to 32 bits (`hasher(node + to_string(i))`). -/
def nodeTokens (hasher : String → Nat) (vn : Nat) (id : String) : List Token :=
  (List.range vn).map (fun i => hasher (id ++ toString i) % M32)

/-- `ConsistentHash::addNode`: insert every virtual-node token. -/
def addNode (hasher : String → Nat) (vn : Nat) (r : List (Token × String))
    (id : String) : List (Token × String) :=
  (nodeTokens hasher vn id).foldl (fun acc t => ringInsert acc t id) r

/-- `ConsistentHash::removeNode`: erase every virtual-node token. -/
def removeNode (hasher : String → Nat) (vn : Nat) (r : List (Token × String))
    (id : String) : List (Token × String) :=
  (nodeTokens hasher vn id).foldl (fun acc t => ringErase acc t) r

/-- `ConsistentHash::getNode` on an already-hashed key: lower_bound on the
    sorted map, wrapping to the first entry, empty string on an empty ring. -/
def getNode : List (Token × String) → Nat → String
  | [], _ => ""
  | (t1, v1) :: r, h =>
    match ((t1, v1) :: r).find? (fun e => decide (h ≤ e.1)) with
    | some e => e.2
    | none => v1

/-- Index of the lower_bound entry (length of the list when absent,
    matching `ring.end()`). -/
def startIdx (r : List (Token × String)) (h : Nat) : Nat :=
  r.findIdx (fun e => decide (h ≤ e.1))

/-- Insertion into a sorted string list, as `std::set<std::string>::insert`:
    position and equivalence are decided by comparison only. -/
def insSorted (v : String) : List String → List String
  | [] => [v]
  | w :: r =>
    if strLt v w then v :: w :: r
    else if strLt w v then w :: insSorted v r
    else w :: r

/-- The collection loop of `ConsistentHash::getNodes`: walk the (rotated)
    ring values while fewer than `count` distinct node-ids are collected and
    iterations remain, inserting each visited value into the set. -/
def walkAcc (count : Nat) : List String → List String → List String
  | [], acc => acc
  | v :: rest, acc =>
    if acc.length < count then walkAcc count rest (insSorted v acc)
    else acc

/-- `ConsistentHash::getNodes` on an already-hashed key: walk clockwise
    from the lower_bound position for at most `ring.size()` iterations,
    inserting node-ids into a `std::set`, and return the set's contents
    (hence in lexicographic, not encounter, order). -/
def getNodes (r : List (Token × String)) (h : Nat) (count : Nat) : List String :=
  if r = [] then []
  else walkAcc count ((r.map Prod.snd).rotate (startIdx r h)) []

/-- Collection loop following the specification text instead of the code:
    distinct node-ids are kept in encounter order. -/
def encWalk (count : Nat) : List String → List String → List String
  | [], acc => acc
  | v :: rest, acc =>
    if acc.length < count then
      encWalk count rest (if v ∈ acc then acc else acc ++ [v])
    else acc

/-- Modelled from the spec: the responsible-node list as §4.A describes it,
    "collecting distinct node-ids in encounter order" along the clockwise
    walk from the key's lower_bound position. Used only to compare the
    spec's wording against `getNodes`. -/
def specEncounterNodes (r : List (Token × String)) (h : Nat) (count : Nat) :
    List String :=
  if r = [] then []
  else encWalk count ((r.map Prod.snd).rotate (startIdx r h)) []

/-! ### Lemmas about sorted-set insertion -/

theorem mem_insSorted {x v : String} : ∀ {l : List String},
    x ∈ insSorted v l ↔ x = v ∨ x ∈ l := by
  intro l
  induction l with
  | nil => simp [insSorted]
  | cons w r ih =>
    cases h1 : strLt v w with
    | true => simp [insSorted, h1]
    | false =>
      cases h2 : strLt w v with
      | true =>
        simp only [insSorted, h1, h2]
        simp [ih]
        tauto
      | false =>
        have hvw : v = w := strLt_total_eq h1 h2
        subst hvw
        simp only [insSorted, h1]
        simp

theorem insSorted_pairwise {v : String} {l : List String}
    (hs : l.Pairwise (fun a b => strLt a b = true)) :
    (insSorted v l).Pairwise (fun a b => strLt a b = true) := by
  induction l with
  | nil => simp [insSorted]
  | cons w r ih =>
    rcases List.pairwise_cons.mp hs with ⟨hw, hr⟩
    by_cases h1 : strLt v w = true
    · rw [insSorted, if_pos h1]
      refine List.pairwise_cons.mpr ⟨?_, hs⟩
      intro x hx
      rcases List.mem_cons.mp hx with rfl | hx
      · exact h1
      · exact strLt_trans h1 (hw x hx)
    · by_cases h2 : strLt w v = true
      · rw [insSorted, if_neg h1, if_pos h2]
        refine List.pairwise_cons.mpr ⟨?_, ih hr⟩
        intro x hx
        rcases mem_insSorted.mp hx with rfl | hx
        · exact h2
        · exact hw x hx
      · rw [insSorted, if_neg h1, if_neg h2]
        exact hs

theorem insSorted_of_mem {v : String} : ∀ {l : List String},
    l.Pairwise (fun a b => strLt a b = true) → v ∈ l → insSorted v l = l := by
  intro l
  induction l with
  | nil => intro _ h; simp at h
  | cons w r ih =>
    intro hs hv
    rcases List.pairwise_cons.mp hs with ⟨hw, hr⟩
    rcases List.mem_cons.mp hv with rfl | hv
    · rw [insSorted, if_neg (by simp [strLt_irrefl]), if_neg (by simp [strLt_irrefl])]
    · have hwv : strLt w v = true := hw v hv
      rw [insSorted, if_neg (by simp [strLt_asymm hwv]), if_pos hwv, ih hr hv]

theorem insSorted_perm_of_not_mem {v : String} : ∀ {l : List String},
    v ∉ l → (insSorted v l).Perm (v :: l) := by
  intro l
  induction l with
  | nil => intro _; simp [insSorted]
  | cons w r ih =>
    intro hv
    by_cases h1 : strLt v w = true
    · rw [insSorted, if_pos h1]
    · by_cases h2 : strLt w v = true
      · rw [insSorted, if_neg h1, if_pos h2]
        have hvr : v ∉ r := fun h => hv (List.mem_cons_of_mem _ h)
        exact ((ih hvr).cons w).trans (List.Perm.swap v w r)
      · exact absurd (strLt_total_eq (Bool.eq_false_iff.mpr h1)
          (Bool.eq_false_iff.mpr h2)) (fun h => hv (h ▸ List.mem_cons_self v r))

theorem insSorted_toFinset (v : String) (l : List String) :
    (insSorted v l).toFinset = insert v l.toFinset := by
  apply Finset.ext
  intro x
  simp [List.mem_toFinset, mem_insSorted]

theorem pairwise_strLt_nodup {l : List String}
    (h : l.Pairwise (fun a b => strLt a b = true)) : l.Nodup := by
  refine h.imp ?_
  intro a b hab heq
  subst heq
  rw [strLt_irrefl] at hab
  exact Bool.false_ne_true hab

/-! ### The counting specification of the collection walk -/

theorem walkAcc_spec (count : Nat) : ∀ (l acc : List String),
    acc.Pairwise (fun a b => strLt a b = true) → acc.length ≤ count →
    (walkAcc count l acc).Pairwise (fun a b => strLt a b = true) ∧
      (walkAcc count l acc).length = min count ((acc ++ l).toFinset.card) := by
  intro l
  induction l with
  | nil =>
    intro acc hs hlen
    have hcard : (acc ++ ([] : List String)).toFinset.card = acc.length := by
      rw [List.append_nil, List.toFinset_card_of_nodup (pairwise_strLt_nodup hs)]
    rw [walkAcc, hcard]
    exact ⟨hs, (Nat.min_eq_right hlen).symm⟩
  | cons v rest ih =>
    intro acc hs hlen
    by_cases hlt : acc.length < count
    · rw [walkAcc, if_pos hlt]
      have hs2 := insSorted_pairwise (v := v) hs
      have hlen2 : (insSorted v acc).length ≤ count := by
        by_cases hv : v ∈ acc
        · rw [insSorted_of_mem hs hv]; exact hlen
        · have := (insSorted_perm_of_not_mem hv).length_eq
          rw [this]
          simpa using hlt
      rcases ih (insSorted v acc) hs2 hlen2 with ⟨h1, h2⟩
      refine ⟨h1, ?_⟩
      rw [h2]
      congr 1
      apply congrArg
      apply Finset.ext
      intro x
      simp only [List.toFinset_append, Finset.mem_union, List.mem_toFinset,
        mem_insSorted, List.mem_cons]
      tauto
    · rw [walkAcc, if_neg hlt]
      have heq : acc.length = count := Nat.le_antisymm hlen (Nat.le_of_not_lt hlt)
      refine ⟨hs, ?_⟩
      have hsub : acc.toFinset ⊆ (acc ++ v :: rest).toFinset := by
        intro x hx
        rw [List.toFinset_append]
        exact Finset.mem_union_left _ hx
      have hge : count ≤ (acc ++ v :: rest).toFinset.card := by
        calc count = acc.length := heq.symm
          _ = acc.toFinset.card :=
              (List.toFinset_card_of_nodup (pairwise_strLt_nodup hs)).symm
          _ ≤ (acc ++ v :: rest).toFinset.card := Finset.card_le_card hsub
      rw [heq, Nat.min_eq_left hge]

/-- C3. For every key hash and every positive count on a non-empty ring,
    `ConsistentHash::getNodes` returns a list of exactly
    min(count, number of distinct node-ids in the ring) node-ids,
    all pairwise distinct. -/
theorem getNodes_count_distinct (r : List (Token × String)) (h c : Nat)
    (hc : 0 < c) (hr : r ≠ []) :
    (getNodes r h c).Nodup ∧
      (getNodes r h c).length = min c ((r.map Prod.snd).dedup.length) := by
  have _ := hc
  rw [getNodes, if_neg hr]
  rcases walkAcc_spec c ((r.map Prod.snd).rotate (startIdx r h)) []
      List.Pairwise.nil (Nat.zero_le c) with ⟨h1, h2⟩
  refine ⟨pairwise_strLt_nodup h1, ?_⟩
  rw [h2, List.nil_append]
  congr 1
  rw [List.card_toFinset]
  exact ((r.map Prod.snd).rotate_perm (startIdx r h)).dedup.length_eq

/-- C3 witness: on the concrete two-node ring `[(10, b), (20, a)]` with key
    hash 5 and count 5, the result has the two distinct node-ids. -/
theorem getNodes_count_distinct_witness :
    0 < 5 ∧ ([((10 : Token), "b"), (20, "a")] : List (Token × String)) ≠ [] ∧
      ((getNodes [((10 : Token), "b"), (20, "a")] 5 5).Nodup ∧
        (getNodes [((10 : Token), "b"), (20, "a")] 5 5).length =
          min 5 (([((10 : Token), "b"), (20, "a")].map Prod.snd).dedup.length)) :=
  ⟨by decide, by decide,
    getNodes_count_distinct [((10 : Token), "b"), (20, "a")] 5 5
      (by decide) (by decide)⟩

/-- C2 counterexample: on the ring `[(10, b), (20, a)]` with key hash 5 the
    encounter order is b then a, but `getNodes` returns the set contents
    `[a, b]`; its first element `a` differs from `getNode`'s result `b`. -/
theorem getNodes_encounter_order_cex :
    getNodes [((10 : Token), "b"), (20, "a")] 5 2 = ["a", "b"] ∧
      specEncounterNodes [((10 : Token), "b"), (20, "a")] 5 2 = ["b", "a"] ∧
      getNodes [((10 : Token), "b"), (20, "a")] 5 2 ≠
        specEncounterNodes [((10 : Token), "b"), (20, "a")] 5 2 ∧
      (getNodes [((10 : Token), "b"), (20, "a")] 5 2).head? ≠
        some (getNode [((10 : Token), "b"), (20, "a")] 5) := by
  refine ⟨by decide, by decide, by decide, by decide⟩

theorem walkAcc_perm_encWalk (count : Nat) : ∀ (l a1 a2 : List String),
    a1.Pairwise (fun a b => strLt a b = true) → a1.Perm a2 →
    (walkAcc count l a1).Perm (encWalk count l a2) := by
  intro l
  induction l with
  | nil => intro a1 a2 _ hp; exact hp
  | cons v rest ih =>
    intro a1 a2 hs hp
    by_cases hlt : a1.length < count
    · have hlt2 : a2.length < count := by rw [← hp.length_eq]; exact hlt
      rw [walkAcc, if_pos hlt, encWalk, if_pos hlt2]
      by_cases hv : v ∈ a1
      · rw [insSorted_of_mem hs hv, if_pos (hp.mem_iff.mp hv)]
        exact ih a1 a2 hs hp
      · rw [if_neg (fun h => hv (hp.mem_iff.mpr h))]
        refine ih (insSorted v a1) (a2 ++ [v]) (insSorted_pairwise hs) ?_
        exact ((insSorted_perm_of_not_mem hv).trans (hp.cons v)).trans
          (List.perm_append_singleton v a2).symm
    · have hlt2 : ¬ a2.length < count := by rw [← hp.length_eq]; exact hlt
      rw [walkAcc, if_neg hlt, encWalk, if_neg hlt2]
      exact hp

/-- C2 amended. `getNodes` collects exactly the distinct node-ids that the
    clockwise encounter walk of the spec would collect, but returns them in
    lexicographic order (the iteration order of the `std::set` it fills), so
    the returned list is the sorted permutation of the spec's encounter-order
    list, and its first element is the least node-id collected rather than
    `getNode`'s primary. -/
theorem getNodes_sorted_perm_encounter (r : List (Token × String)) (h c : Nat) :
    (getNodes r h c).Pairwise (fun a b => strLt a b = true) ∧
      (getNodes r h c).Perm (specEncounterNodes r h c) := by
  by_cases hr : r = []
  · subst hr
    exact ⟨by simp [getNodes], by simp [getNodes, specEncounterNodes]⟩
  · constructor
    · rw [getNodes, if_neg hr]
      exact (walkAcc_spec c _ [] List.Pairwise.nil (Nat.zero_le c)).1
    · rw [getNodes, if_neg hr, specEncounterNodes, if_neg hr]
      exact walkAcc_perm_encWalk c _ [] [] List.Pairwise.nil (List.Perm.refl [])

end ConsistentHash

/-! ## The storage engine (class StorageEngine)

Per-node WAL plus in-memory index. The index (`std::unordered_map`) is an
association list built by insert-or-overwrite; the WAL file is the list of
characters written so far; `good` models the health of the `ofstream`
(C++ stream insertion on a failed stream silently discards the output and
no error is ever checked by the code). -/

namespace StorageEngine

/-- Lookup in the in-memory index (`data.find(key)`). -/
def lookupA (d : List (String × String)) (k : String) : Option String :=
  (d.find? (fun e => decide (e.1 = k))).map Prod.snd

/-- Insert-or-overwrite into the index (`data[key] = value`). -/
def insA : List (String × String) → String → String → List (String × String)
  | [], k, v => [(k, v)]
  | (k1, v1) :: d, k, v =>
    if k1 = k then (k, v) :: d else (k1, v1) :: insA d k v

/-- Erase from the index (`data.erase(key)`). -/
def eraseA (d : List (String × String)) (k : String) : List (String × String) :=
  d.filter (fun e => decide (e.1 ≠ k))

/-- One serialized `PUT` record, exactly as `wal_file << "PUT " << key
    << " " << value << "\n"` emits it. -/
def serPut (k v : String) : List Char := ("PUT " ++ k ++ " " ++ v ++ "\n").toList

/-- One serialized `DEL` record. -/
def serDel (k : String) : List Char := ("DEL " ++ k ++ "\n").toList

/-- Storage-engine state: in-memory index, WAL file contents, stream health. -/
structure State where
  data : List (String × String)
  wal : List Char
  good : Bool

/-- `StorageEngine::put`: append the record and flush (silently dropped by a
    failed stream), then update the index unconditionally. -/
def put (s : State) (k v : String) : State :=
  { s with wal := s.wal ++ (if s.good then serPut k v else []),
           data := insA s.data k v }

/-- `StorageEngine::get`: read the index, empty string when absent. -/
def get (s : State) (k : String) : String := (lookupA s.data k).getD ""

/-- `StorageEngine::remove`: append `DEL`, erase from the index, report
    whether the key was present. -/
def remove (s : State) (k : String) : Bool × State :=
  ((lookupA s.data k).isSome,
   { s with wal := s.wal ++ (if s.good then serDel k else []),
            data := eraseA s.data k })

/-- `StorageEngine::putBatch`: append all records, then apply all updates. -/
def putBatch (s : State) (batch : List (String × String)) : State :=
  { s with
    wal := s.wal ++ (if s.good then (batch.map (fun kv => serPut kv.1 kv.2)).flatten else []),
    data := batch.foldl (fun d kv => insA d kv.1 kv.2) s.data }

/-- `StorageEngine::removeBatch`: append all `DEL` records, then erase. -/
def removeBatch (s : State) (keys : List String) : State :=
  { s with
    wal := s.wal ++ (if s.good then (keys.map serDel).flatten else []),
    data := keys.foldl eraseA s.data }

/-! ### WAL replay (StorageEngine::loadFromWAL) -/

/-- Whitespace as classified by `operator>>` on the default locale. -/
def isWS (c : Char) : Bool :=
  c = ' ' || c = '\t' || c = '\n' || c = '\r' || c = '\x0b' || c = '\x0c'

/-- One `iss >> tok` extraction: skip whitespace, take the maximal
    non-whitespace run, return it with the unconsumed remainder. -/
def extractTok (l : List Char) : List Char × List Char :=
  let l2 := l.dropWhile isWS
  (l2.takeWhile (fun c => !isWS c), l2.dropWhile (fun c => !isWS c))

/-- The replay's single-leading-space strip of a PUT value. -/
def stripOneSpace : List Char → List Char
  | ' ' :: r => r
  | l => l

/-- Replay of one WAL line: extract opcode and key, then either set the key
    to the rest of the line (one leading space stripped), erase the key, or
    skip the malformed line. -/
def applyLine (d : List (String × String)) (l : List Char) :
    List (String × String) :=
  let p1 := extractTok l
  let p2 := extractTok p1.2
  if String.mk p1.1 = "PUT" then insA d (String.mk p2.1) (String.mk (stripOneSpace p2.2))
  else if String.mk p1.1 = "DEL" then eraseA d (String.mk p2.1)
  else d

/-- The `getline` loop: split the file into lines at each newline, with a
    final unterminated fragment forming a last line. -/
def linesAux : List Char → List Char → List (List Char)
  | [], cur => if cur = [] then [] else [cur]
  | c :: rest, cur =>
    if c = '\n' then cur :: linesAux rest [] else linesAux rest (cur ++ [c])

/-- All lines of a WAL file, in `getline` order. -/
def linesOf (l : List Char) : List (List Char) := linesAux l []

/-- `StorageEngine::loadFromWAL`: replay every line into an empty index. -/
def loadFromWAL (w : List Char) : List (String × String) :=
  (linesOf w).foldl applyLine []

/-! ### Index-lookup lemmas -/

theorem lookupA_cons (k1 v1 q : String) (d : List (String × String)) :
    lookupA ((k1, v1) :: d) q = if k1 = q then some v1 else lookupA d q := by
  by_cases h : k1 = q
  · simp [lookupA, List.find?_cons_of_pos, h]
  · simp [lookupA, List.find?_cons_of_neg, h]

theorem eraseA_cons (k1 v1 k : String) (d : List (String × String)) :
    eraseA ((k1, v1) :: d) k =
      if k1 = k then eraseA d k else (k1, v1) :: eraseA d k := by
  by_cases h : k1 = k
  · simp [eraseA, List.filter_cons, h]
  · simp [eraseA, List.filter_cons, h]

theorem lookupA_insA (d : List (String × String)) (k v q : String) :
    lookupA (insA d k v) q = if q = k then some v else lookupA d q := by
  induction d with
  | nil =>
    by_cases hq : q = k
    · subst hq; simp [insA, lookupA_cons, lookupA]
    · simp [insA, lookupA_cons, lookupA, hq, Ne.symm hq]
  | cons e d ih =>
    rcases e with ⟨k1, v1⟩
    by_cases h1 : k1 = k
    · subst h1
      rw [insA, if_pos rfl, lookupA_cons, lookupA_cons]
      by_cases hq : q = k1
      · simp [hq]
      · simp [hq, Ne.symm hq]
    · rw [insA, if_neg h1, lookupA_cons, lookupA_cons, ih]
      by_cases hq : k1 = q
      · subst hq
        simp [h1]
      · simp [hq]

theorem lookupA_eraseA (d : List (String × String)) (k q : String) :
    lookupA (eraseA d k) q = if q = k then none else lookupA d q := by
  induction d with
  | nil => simp [eraseA, lookupA]
  | cons e d ih =>
    rcases e with ⟨k1, v1⟩
    rw [eraseA_cons]
    by_cases h1 : k1 = k
    · rw [if_pos h1, ih, lookupA_cons]
      subst h1
      by_cases hq : q = k1
      · simp [hq]
      · simp [hq, Ne.symm hq]
    · rw [if_neg h1, lookupA_cons, ih, lookupA_cons]
      by_cases hq : k1 = q
      · subst hq
        simp [h1]
      · simp [hq]

/-- C5 counterexample: with the WAL stream already failed, `put` writes
    nothing to the log, reports no error, and still updates the in-memory
    index — the claimed IoError path with an unchanged index does not exist
    in the code. -/
theorem storage_put_ignores_stream_failure_cex :
    (put { data := [], wal := [], good := false } "k" "v").wal = [] ∧
      (put { data := [], wal := [], good := false } "k" "v").data = [("k", "v")] ∧
      lookupA (put { data := [], wal := [], good := false } "k" "v").data "k" ≠
        lookupA ([] : List (String × String)) "k" := by
  refine ⟨rfl, rfl, by decide⟩

/-- C5 amended. `StorageEngine::put` appends the serialized PUT record to the
    WAL (the append is silently lost when the stream has failed) and then
    updates the in-memory index unconditionally; no failure is detected and
    no error is surfaced, so the index gains the binding even when nothing
    could be flushed. -/
theorem storage_put_wal_and_index (s : State) (k v : String) :
    (∀ q, lookupA (put s k v).data q = if q = k then some v else lookupA s.data q) ∧
      (put s k v).wal = s.wal ++ (if s.good then serPut k v else []) ∧
      (put s k v).good = s.good :=
  ⟨fun q => lookupA_insA s.data k v q, rfl, rfl⟩

end StorageEngine

namespace StorageEngine

/-! ### Operation sequences and the replay round trip (claim C6) -/

/-- One client-visible storage operation. -/
inductive StorOp where
  | putOp (k v : String)
  | removeOp (k : String)
deriving DecidableEq

/-- Apply one operation to the engine state. -/
def applyOp (s : State) : StorOp → State
  | .putOp k v => put s k v
  | .removeOp k => (remove s k).2

/-- Run a sequence of operations. -/
def runOps (s : State) (ops : List StorOp) : State := ops.foldl applyOp s

/-- A freshly-constructed engine with an empty WAL file and a healthy stream. -/
def emptyState : State := { data := [], wal := [], good := true }

/-- The effect of one operation on the in-memory index alone. -/
def applyOpData (d : List (String × String)) : StorOp → List (String × String)
  | .putOp k v => insA d k v
  | .removeOp k => eraseA d k

/-- The WAL line an operation writes, without its trailing newline. -/
def opLine : StorOp → List Char
  | .putOp k v => ("PUT " ++ k ++ " " ++ v).toList
  | .removeOp k => ("DEL " ++ k).toList

/-- Concatenate newline-terminated lines into file contents. -/
def flatLines (lns : List (List Char)) : List Char :=
  (lns.map (fun l => l ++ ['\n'])).flatten

/-- Keys must be nonempty and whitespace-free and values newline-free for
    the line-oriented WAL format to round-trip. -/
def goodOp : StorOp → Prop
  | .putOp k v => k.toList ≠ [] ∧ (∀ c ∈ k.toList, isWS c = false) ∧ '\n' ∉ v.toList
  | .removeOp k => k.toList ≠ [] ∧ ∀ c ∈ k.toList, isWS c = false

instance : DecidablePred goodOp := fun op =>
  match op with
  | .putOp k v =>
    inferInstanceAs (Decidable (k.toList ≠ [] ∧ (∀ c ∈ k.toList, isWS c = false) ∧ '\n' ∉ v.toList))
  | .removeOp k =>
    inferInstanceAs (Decidable (k.toList ≠ [] ∧ ∀ c ∈ k.toList, isWS c = false))

theorem serPut_eq_opLine (k v : String) :
    serPut k v = opLine (.putOp k v) ++ ['\n'] := by
  simp [serPut, opLine, String.toList, String.data_append]

theorem serDel_eq_opLine (k : String) :
    serDel k = opLine (.removeOp k) ++ ['\n'] := by
  simp [serDel, opLine, String.toList, String.data_append]

theorem runOps_wal_data (ops : List StorOp) : ∀ s : State, s.good = true →
    (runOps s ops).good = true ∧
      (runOps s ops).wal = s.wal ++ flatLines (ops.map opLine) ∧
      (runOps s ops).data = ops.foldl applyOpData s.data := by
  induction ops with
  | nil => intro s hs; simp [runOps, flatLines, hs]
  | cons op rest ih =>
    intro s hs
    have hstep : runOps s (op :: rest) = runOps (applyOp s op) rest := rfl
    have hg : (applyOp s op).good = true := by
      cases op <;> simp [applyOp, put, remove, hs]
    rcases ih (applyOp s op) hg with ⟨h1, h2, h3⟩
    refine ⟨hstep ▸ h1, ?_, ?_⟩
    · rw [hstep, h2]
      have hwal : (applyOp s op).wal = s.wal ++ (opLine op ++ ['\n']) := by
        cases op with
        | putOp k v => simp [applyOp, put, hs, serPut_eq_opLine]
        | removeOp k => simp [applyOp, remove, hs, serDel_eq_opLine]
      rw [hwal]
      simp [flatLines]
    · rw [hstep, h3]
      have hdata : (applyOp s op).data = applyOpData s.data op := by
        cases op <;> simp [applyOp, put, remove, applyOpData]
      rw [hdata]
      rfl

/-! ### Splitting the WAL back into lines -/

theorem linesAux_append_newline (line : List Char) (h : '\n' ∉ line) :
    ∀ (rest cur : List Char),
      linesAux (line ++ '\n' :: rest) cur = (cur ++ line) :: linesAux rest [] := by
  induction line with
  | nil => intro rest cur; simp [linesAux]
  | cons c cs ih =>
    intro rest cur
    have hc : c ≠ '\n' := fun hc => h (hc ▸ List.mem_cons_self c cs)
    have hcs : '\n' ∉ cs := fun hm => h (List.mem_cons_of_mem c hm)
    simp only [List.cons_append, linesAux, if_neg hc, List.append_eq]
    rw [ih hcs rest (cur ++ [c])]
    simp

theorem linesOf_flatLines (lns : List (List Char))
    (h : ∀ l ∈ lns, '\n' ∉ l) : linesOf (flatLines lns) = lns := by
  induction lns with
  | nil => simp [flatLines, linesOf, linesAux]
  | cons l rest ih =>
    have hl : '\n' ∉ l := h l (List.mem_cons_self l rest)
    have hrest : ∀ x ∈ rest, '\n' ∉ x := fun x hx => h x (List.mem_cons_of_mem l hx)
    have hshape : flatLines (l :: rest) = l ++ '\n' :: flatLines rest := by
      simp [flatLines]
    rw [hshape, linesOf, linesAux_append_newline l hl, List.nil_append, ← linesOf, ih hrest]

/-! ### Parsing one serialized record -/

theorem takeWhile_all_append {p : Char → Bool} (xs ys : List Char)
    (h : ∀ x ∈ xs, p x = true) :
    (xs ++ ys).takeWhile p = xs ++ ys.takeWhile p ∧
      (xs ++ ys).dropWhile p = ys.dropWhile p := by
  induction xs with
  | nil => simp
  | cons x xs ih =>
    have hx : p x = true := h x (List.mem_cons_self x xs)
    have hxs : ∀ y ∈ xs, p y = true := fun y hy => h y (List.mem_cons_of_mem x hy)
    rcases ih hxs with ⟨h1, h2⟩
    simp [List.takeWhile_cons, List.dropWhile_cons, hx, h1, h2]

theorem extractTok_sep (tok rest : List Char) (sep : Char)
    (htok : ∀ x ∈ tok, isWS x = false) (hne : tok ≠ []) (hsep : isWS sep = true) :
    extractTok (tok ++ sep :: rest) = (tok, sep :: rest) := by
  have hnw : ∀ x ∈ tok, (fun c => !isWS c) x = true := by
    intro x hx; simp [htok x hx]
  have hdrop1 : (tok ++ sep :: rest).dropWhile isWS = tok ++ sep :: rest := by
    cases tok with
    | nil => exact absurd rfl hne
    | cons t ts =>
      have : isWS t = false := htok t (List.mem_cons_self t ts)
      simp [List.dropWhile_cons, this]
  rcases takeWhile_all_append (p := fun c => !isWS c) tok (sep :: rest) hnw with ⟨h1, h2⟩
  rw [extractTok]
  simp only [hdrop1, h1, h2, List.takeWhile_cons, List.dropWhile_cons, hsep]
  simp [hsep]

theorem extractTok_ws_cons (c : Char) (l : List Char) (hc : isWS c = true) :
    extractTok (c :: l) = extractTok l := by
  simp [extractTok, List.dropWhile_cons, hc]

theorem extractTok_all (tok : List Char) (htok : ∀ x ∈ tok, isWS x = false) :
    extractTok tok = (tok, []) := by
  have hnw : ∀ x ∈ tok, (fun c => !isWS c) x = true := by
    intro x hx; simp [htok x hx]
  have hdrop1 : tok.dropWhile isWS = tok := by
    cases tok with
    | nil => rfl
    | cons t ts =>
      have : isWS t = false := htok t (List.mem_cons_self t ts)
      simp [List.dropWhile_cons, this]
  have hform : tok ++ ([] : List Char) = tok := List.append_nil tok
  rcases takeWhile_all_append (p := fun c => !isWS c) tok [] hnw with ⟨h1, h2⟩
  rw [hform] at h1 h2
  rw [extractTok]
  simp only [hdrop1, h1, h2]
  simp

theorem opLine_put_shape (k v : String) :
    opLine (.putOp k v) = ['P', 'U', 'T'] ++ ' ' :: (k.toList ++ ' ' :: v.toList) := by
  simp [opLine, String.toList, String.data_append]

theorem opLine_del_shape (k : String) :
    opLine (.removeOp k) = ['D', 'E', 'L'] ++ ' ' :: k.toList := by
  simp [opLine, String.toList, String.data_append]

theorem applyLine_opLine (d : List (String × String)) (op : StorOp)
    (hop : goodOp op) : applyLine d (opLine op) = applyOpData d op := by
  cases op with
  | putOp k v =>
    rcases hop with ⟨hk1, hk2, _⟩
    rw [opLine_put_shape]
    have e1 : extractTok (['P', 'U', 'T'] ++ ' ' :: (k.toList ++ ' ' :: v.toList)) =
        (['P', 'U', 'T'], ' ' :: (k.toList ++ ' ' :: v.toList)) := by
      apply extractTok_sep <;> simp [isWS]
    have e2 : extractTok (' ' :: (k.toList ++ ' ' :: v.toList)) =
        (k.toList, ' ' :: v.toList) := by
      rw [extractTok_ws_cons _ _ (by simp [isWS])]
      exact extractTok_sep k.toList v.toList ' ' hk2 hk1 (by simp [isWS])
    rw [applyLine]
    simp only [e1, e2]
    rw [if_pos (by decide)]
    show insA d (String.mk k.toList) (String.mk (stripOneSpace (' ' :: v.toList))) = _
    have hstrip : stripOneSpace (' ' :: v.toList) = v.toList := rfl
    rw [hstrip]
    show insA d k v = applyOpData d (.putOp k v)
    rfl
  | removeOp k =>
    rcases hop with ⟨hk1, hk2⟩
    rw [opLine_del_shape]
    have e1 : extractTok (['D', 'E', 'L'] ++ ' ' :: k.toList) =
        (['D', 'E', 'L'], ' ' :: k.toList) := by
      apply extractTok_sep <;> simp [isWS]
    have e2 : extractTok (' ' :: k.toList) = (k.toList, []) := by
      rw [extractTok_ws_cons _ _ (by simp [isWS])]
      exact extractTok_all k.toList hk2
    rw [applyLine]
    simp only [e1, e2]
    rw [if_neg (by decide), if_pos (by decide)]
    show eraseA d k = applyOpData d (.removeOp k)
    rfl

theorem opLine_newline_free (op : StorOp) (hop : goodOp op) :
    '\n' ∉ opLine op := by
  cases op with
  | putOp k v =>
    rcases hop with ⟨_, hk2, hv⟩
    rw [opLine_put_shape]
    intro hmem
    rcases List.mem_append.mp hmem with h | h
    · exact absurd h (by decide)
    · rcases List.mem_cons.mp h with h | h
      · exact absurd h (by decide)
      · rcases List.mem_append.mp h with h | h
        · have := hk2 '\n' h
          simp [isWS] at this
        · rcases List.mem_cons.mp h with h | h
          · exact absurd h (by decide)
          · exact hv h
  | removeOp k =>
    rcases hop with ⟨_, hk2⟩
    rw [opLine_del_shape]
    intro hmem
    rcases List.mem_append.mp hmem with h | h
    · exact absurd h (by decide)
    · rcases List.mem_cons.mp h with h | h
      · exact absurd h (by decide)
      · have := hk2 '\n' h
        simp [isWS] at this

theorem foldl_applyLine_opLine (ops : List StorOp) :
    ∀ d, (∀ op ∈ ops, goodOp op) →
      ops.foldl (fun acc op => applyLine acc (opLine op)) d = ops.foldl applyOpData d := by
  induction ops with
  | nil => intro d _; rfl
  | cons op rest ih =>
    intro d hops
    have hop : goodOp op := hops op (List.mem_cons_self op rest)
    have hrest : ∀ x ∈ rest, goodOp x := fun x hx => hops x (List.mem_cons_of_mem op hx)
    simp only [List.foldl_cons, applyLine_opLine d op hop]
    exact ih (applyOpData d op) hrest

/-- C6 counterexample: a key containing a space breaks the replay round
    trip. After `put("a b", "v")` the index holds the key `a b`, but
    replaying the WAL line `PUT a b v` parses the key as `a` (and the value
    as `b v`), so the replayed index does not contain `a b`. -/
theorem wal_replay_mismatch_cex :
    lookupA (runOps emptyState [StorOp.putOp "a b" "v"]).data "a b" = some "v" ∧
      lookupA (loadFromWAL (runOps emptyState [StorOp.putOp "a b" "v"]).wal) "a b" = none ∧
      lookupA (loadFromWAL (runOps emptyState [StorOp.putOp "a b" "v"]).wal) "a" =
        some "b v" := by
  refine ⟨by decide, by decide, by decide⟩

/-- C6 amended. For every sequence of put and remove operations whose keys
    are nonempty and whitespace-free and whose values contain no newline,
    executed from an empty store with a healthy WAL stream, the final
    in-memory index equals the index obtained by replaying the resulting WAL
    file from the start with `loadFromWAL`. -/
theorem wal_replay_reconstructs_index (ops : List StorOp)
    (hops : ∀ op ∈ ops, goodOp op) :
    loadFromWAL (runOps emptyState ops).wal = (runOps emptyState ops).data := by
  obtain ⟨_, hw, hd⟩ := runOps_wal_data ops emptyState rfl
  rw [hw, hd]
  show loadFromWAL ([] ++ flatLines (ops.map opLine)) = _
  rw [List.nil_append, loadFromWAL,
    linesOf_flatLines _ (by
      intro l hl
      rcases List.mem_map.mp hl with ⟨op, hop, rfl⟩
      exact opLine_newline_free op (hops op hop)),
    List.foldl_map]
  exact foldl_applyLine_opLine ops [] hops

/-- C6 witness: the concrete sequence put(k, "v with spaces"), remove(k),
    put(k, v2) satisfies the key and value constraints and replays to the
    final index. -/
theorem wal_replay_reconstructs_index_witness :
    (∀ op ∈ [StorOp.putOp "k" "v with spaces", StorOp.removeOp "k",
        StorOp.putOp "k" "v2"], goodOp op) ∧
      loadFromWAL (runOps emptyState [StorOp.putOp "k" "v with spaces",
          StorOp.removeOp "k", StorOp.putOp "k" "v2"]).wal =
        (runOps emptyState [StorOp.putOp "k" "v with spaces",
          StorOp.removeOp "k", StorOp.putOp "k" "v2"]).data :=
  ⟨by decide, wal_replay_reconstructs_index _ (by decide)⟩

end StorageEngine

/-! ## The LRU cache (template class LRUCache, instantiated at string/string)

The intrusive doubly-linked recency list is modelled as the list of its
real (non-sentinel) nodes, most-recently-used first; the `unordered_map`
from key to node handle is modelled by its key set. The two are updated
separately, exactly along the code paths of the source. -/

namespace LRUCache

/-- Cache state: capacity, recency list (head = most recently used, the
    entry before the tail sentinel is the last list element), and the hash
    index key set. -/
structure Cache where
  capacity : Nat
  lst : List (String × String)
  idx : Finset String

/-- `LRUCache::get`: on a hash hit, splice the found node to the head and
    return its value; on a miss return the empty sentinel. -/
def cGet (c : Cache) (k : String) : String × Cache :=
  if k ∈ c.idx then
    match c.lst.find? (fun e => decide (e.1 = k)) with
    | some e => (e.2, { c with lst := e :: c.lst.eraseP (fun x => decide (x.1 = k)) })
    | none => ("", c)
  else ("", c)

/-- `LRUCache::put`: on a hit update the value and splice to the head;
    otherwise, if at capacity, unlink the node before the tail sentinel and
    erase its key, then insert the new node at the head. -/
def cPut (c : Cache) (k v : String) : Cache :=
  if k ∈ c.idx then
    { c with lst := (k, v) :: c.lst.eraseP (fun x => decide (x.1 = k)) }
  else
    let c1 :=
      if c.capacity ≤ c.idx.card then
        match c.lst.getLast? with
        | some e => { c with lst := c.lst.dropLast, idx := c.idx.erase e.1 }
        | none => c
      else c
    { c1 with lst := (k, v) :: c1.lst, idx := insert k c1.idx }

/-- `LRUCache::remove`: unlink and erase on a hit, report presence. -/
def cRemove (c : Cache) (k : String) : Bool × Cache :=
  if k ∈ c.idx then
    (true, { c with lst := c.lst.eraseP (fun x => decide (x.1 = k)),
                    idx := c.idx.erase k })
  else (false, c)

/-- One cache operation, for operation sequences. -/
inductive CacheOp where
  | getOp (k : String)
  | putOp (k v : String)
  | removeOp (k : String)
deriving DecidableEq

/-- Apply one cache operation, discarding returned values. -/
def applyCOp (c : Cache) : CacheOp → Cache
  | .getOp k => (cGet c k).2
  | .putOp k v => cPut c k v
  | .removeOp k => (cRemove c k).2

/-- Run a sequence of cache operations. -/
def runCOps (c : Cache) (ops : List CacheOp) : Cache := ops.foldl applyCOp c

/-- `LRUCache(cap)`: empty list between the two sentinels, empty hash. -/
def emptyCache (cap : Nat) : Cache := { capacity := cap, lst := [], idx := ∅ }

/-! ### Helper lemmas on key lists -/

theorem map_fst_eraseP (lst : List (String × String)) (k : String) :
    (lst.eraseP (fun x => decide (x.1 = k))).map Prod.fst =
      (lst.map Prod.fst).eraseP (fun x => decide (x = k)) := by
  induction lst with
  | nil => rfl
  | cons e rest ih =>
    by_cases h : e.1 = k
    · simp [List.eraseP_cons, h]
    · simp [List.eraseP_cons, h, ih]

theorem keys_eraseP_spec (ks : List String) (k : String) (hnd : ks.Nodup)
    (hk : k ∈ ks) :
    (ks.eraseP (fun x => decide (x = k))).length + 1 = ks.length ∧
      (ks.eraseP (fun x => decide (x = k))).Nodup ∧
      ∀ x, x ∈ ks.eraseP (fun x => decide (x = k)) ↔ x ∈ ks ∧ x ≠ k := by
  induction ks with
  | nil => cases hk
  | cons h1 rest ih =>
    rcases List.nodup_cons.mp hnd with ⟨hh1, hrest⟩
    by_cases hc : h1 = k
    · subst hc
      refine ⟨by simp [List.eraseP_cons], by simp [List.eraseP_cons, hrest], ?_⟩
      intro x
      simp only [List.eraseP_cons, decide_True, cond_true, List.mem_cons]
      constructor
      · intro hx
        exact ⟨Or.inr hx, fun he => hh1 (he ▸ hx)⟩
      · rintro ⟨hx | hx, hne⟩
        · exact absurd hx hne
        · exact hx
    · have hkrest : k ∈ rest := by
        rcases List.mem_cons.mp hk with h | h
        · exact absurd h.symm hc
        · exact h
      rcases ih hrest hkrest with ⟨hl, hn, hm⟩
      refine ⟨?_, ?_, ?_⟩
      · simp only [List.eraseP_cons, decide_eq_true_eq, hc, decide_False, cond_false,
          List.length_cons]
        omega
      · simp only [List.eraseP_cons, hc, decide_False, cond_false]
        refine List.nodup_cons.mpr ⟨?_, hn⟩
        intro hmem
        exact hh1 ((hm h1).mp hmem).1
      · intro x
        simp only [List.eraseP_cons, hc, decide_False, cond_false, List.mem_cons]
        constructor
        · rintro (rfl | hx)
          · exact ⟨Or.inl rfl, fun he => hc he⟩
          · rcases (hm x).mp hx with ⟨h1x, h2x⟩
            exact ⟨Or.inr h1x, h2x⟩
        · rintro ⟨rfl | hx, hne⟩
          · exact Or.inl rfl
          · exact Or.inr ((hm x).mpr ⟨hx, hne⟩)

/-- Coherence of the two cache structures, the inductive invariant. -/
def Coh (c : Cache) : Prop :=
  (c.lst.map Prod.fst).Nodup ∧ c.idx = (c.lst.map Prod.fst).toFinset ∧
    c.lst.length ≤ c.capacity

theorem coh_empty (cap : Nat) : Coh (emptyCache cap) := by
  refine ⟨List.nodup_nil, ?_, Nat.zero_le cap⟩
  simp [emptyCache]

theorem splice_coh (lst : List (String × String)) (k v : String)
    (hnd : (lst.map Prod.fst).Nodup) (hk : k ∈ lst.map Prod.fst) :
    (((k, v) :: lst.eraseP (fun x => decide (x.1 = k))).map Prod.fst).Nodup ∧
      (((k, v) :: lst.eraseP (fun x => decide (x.1 = k))).map Prod.fst).toFinset =
        (lst.map Prod.fst).toFinset ∧
      ((k, v) :: lst.eraseP (fun x => decide (x.1 = k))).length = lst.length := by
  rcases keys_eraseP_spec (lst.map Prod.fst) k hnd hk with ⟨hl, hn, hm⟩
  refine ⟨?_, ?_, ?_⟩
  · rw [List.map_cons, map_fst_eraseP]
    refine List.nodup_cons.mpr ⟨?_, hn⟩
    intro hmem
    exact ((hm k).mp hmem).2 rfl
  · apply Finset.ext
    intro x
    rw [List.map_cons, map_fst_eraseP]
    simp only [List.mem_toFinset, List.mem_cons, hm x]
    constructor
    · rintro (rfl | ⟨hx, _⟩)
      · exact hk
      · exact hx
    · intro hx
      by_cases hxk : x = k
      · exact Or.inl hxk
      · exact Or.inr ⟨hx, hxk⟩
  · have : (lst.eraseP (fun x => decide (x.1 = k))).length + 1 = lst.length := by
      have e1 : (lst.eraseP (fun x => decide (x.1 = k))).length =
          ((lst.eraseP (fun x => decide (x.1 = k))).map Prod.fst).length :=
        (List.length_map _ _).symm
      have e2 : lst.length = (lst.map Prod.fst).length := (List.length_map _ _).symm
      rw [e1, e2, map_fst_eraseP]
      exact hl
    simpa using this

theorem coh_applyCOp (c : Cache) (op : CacheOp) (hcap : 0 < c.capacity)
    (h : Coh c) : Coh (applyCOp c op) ∧ (applyCOp c op).capacity = c.capacity := by
  rcases h with ⟨hnd, hidx, hlen⟩
  cases op with
  | getOp k =>
    by_cases hk : k ∈ c.idx
    · have hkeys : k ∈ c.lst.map Prod.fst := by
        rw [hidx] at hk
        exact List.mem_toFinset.mp hk
      have hfind : c.lst.find? (fun e => decide (e.1 = k)) ≠ none := by
        intro hnone
        rcases List.mem_map.mp hkeys with ⟨e, he, hek⟩
        have hno := List.find?_eq_none.mp hnone e he
        simp [hek] at hno
      rcases Option.ne_none_iff_exists.mp hfind with ⟨e, he⟩
      have hek : e.1 = k := by simpa using List.find?_some he.symm
      rcases splice_coh c.lst k e.2 hnd hkeys with ⟨h1, h2, h3⟩
      have hres : applyCOp c (.getOp k) =
          { c with lst := e :: c.lst.eraseP (fun x => decide (x.1 = k)) } := by
        simp [applyCOp, cGet, hk, he.symm]
      rw [hres]
      have hecons : (e : String × String) = (k, e.2) := by
        rw [← hek]
      rw [hecons]
      exact ⟨⟨h1, by rw [hidx, h2], by rw [h3]; exact hlen⟩, rfl⟩
    · have hres : applyCOp c (.getOp k) = c := by
        simp [applyCOp, cGet, hk]
      rw [hres]
      exact ⟨⟨hnd, hidx, hlen⟩, rfl⟩
  | putOp k v =>
    by_cases hk : k ∈ c.idx
    · have hkeys : k ∈ c.lst.map Prod.fst := by
        rw [hidx] at hk
        exact List.mem_toFinset.mp hk
      rcases splice_coh c.lst k v hnd hkeys with ⟨h1, h2, h3⟩
      have hres : applyCOp c (.putOp k v) =
          { c with lst := (k, v) :: c.lst.eraseP (fun x => decide (x.1 = k)) } := by
        simp [applyCOp, cPut, hk]
      rw [hres]
      exact ⟨⟨h1, by rw [hidx, h2], by rw [h3]; exact hlen⟩, rfl⟩
    · have hkeys : k ∉ c.lst.map Prod.fst := by
        intro hmem
        exact hk (hidx ▸ List.mem_toFinset.mpr hmem)
      have hcard : c.idx.card = c.lst.length := by
        rw [hidx, List.toFinset_card_of_nodup hnd, List.length_map]
      by_cases hfull : c.capacity ≤ c.idx.card
      · have hlenfull : c.lst.length = c.capacity := by omega
        have hne : c.lst ≠ [] := by
          intro hnil
          rw [hnil] at hlenfull
          simp at hlenfull
          omega
        have hlast : c.lst.getLast? = some (c.lst.getLast hne) :=
          List.getLast?_eq_getLast c.lst hne
        have hres : applyCOp c (.putOp k v) =
            { c with lst := (k, v) :: c.lst.dropLast,
                     idx := insert k (c.idx.erase (c.lst.getLast hne).1) } := by
          simp [applyCOp, cPut, hk, hfull, hlast]
        rw [hres]
        have hsplit : c.lst.dropLast ++ [c.lst.getLast hne] = c.lst :=
          List.dropLast_append_getLast hne
        have hkeysplit : (c.lst.dropLast.map Prod.fst) ++ [(c.lst.getLast hne).1] =
            c.lst.map Prod.fst := by
          have hmapsing : [(c.lst.getLast hne).1] =
              List.map Prod.fst [c.lst.getLast hne] := rfl
          rw [hmapsing, ← List.map_append, hsplit]
        have hndk : ((c.lst.dropLast.map Prod.fst) ++ [(c.lst.getLast hne).1]).Nodup := by
          rw [hkeysplit]; exact hnd
        have hnd2 : (c.lst.dropLast.map Prod.fst).Nodup :=
          (List.nodup_append.mp hndk).1
        have hlastnotin : (c.lst.getLast hne).1 ∉ c.lst.dropLast.map Prod.fst := by
          intro hmem
          rcases List.nodup_append.mp hndk with ⟨_, _, hdisj⟩
          exact hdisj hmem (List.mem_singleton_self _)
        have hknot : k ∉ c.lst.dropLast.map Prod.fst := by
          intro hmem
          apply hkeys
          rw [← hkeysplit]
          exact List.mem_append_left _ hmem
        refine ⟨⟨?_, ?_, ?_⟩, rfl⟩
        · rw [List.map_cons]
          exact List.nodup_cons.mpr ⟨hknot, hnd2⟩
        · apply Finset.ext
          intro x
          rw [hidx]
          simp only [List.map_cons, List.toFinset_cons, Finset.mem_insert, Finset.mem_erase,
            List.mem_toFinset]
          constructor
          · rintro (rfl | ⟨hxn, hx⟩)
            · exact Or.inl rfl
            · refine Or.inr ?_
              rw [← hkeysplit] at hx
              rcases List.mem_append.mp hx with hx2 | hx2
              · exact hx2
              · exact absurd (List.mem_singleton.mp hx2) hxn
          · rintro (rfl | hx)
            · exact Or.inl rfl
            · by_cases hxl : x = (c.lst.getLast hne).1
              · subst hxl
                exact absurd hx hlastnotin
              · refine Or.inr ⟨hxl, ?_⟩
                rw [← hkeysplit]
                exact List.mem_append_left _ hx
        · show c.lst.dropLast.length + 1 ≤ c.capacity
          have hdl : c.lst.dropLast.length + 1 = c.lst.length := by
            conv_rhs => rw [← hsplit]
            simp
          omega
      · have hres : applyCOp c (.putOp k v) =
            { c with lst := (k, v) :: c.lst, idx := insert k c.idx } := by
          simp [applyCOp, cPut, hk, hfull]
        rw [hres]
        refine ⟨⟨?_, ?_, ?_⟩, rfl⟩
        · rw [List.map_cons]
          exact List.nodup_cons.mpr ⟨hkeys, hnd⟩
        · rw [List.map_cons, List.toFinset_cons, hidx]
        · show c.lst.length + 1 ≤ c.capacity
          omega
  | removeOp k =>
    by_cases hk : k ∈ c.idx
    · have hkeys : k ∈ c.lst.map Prod.fst := by
        rw [hidx] at hk
        exact List.mem_toFinset.mp hk
      rcases keys_eraseP_spec (c.lst.map Prod.fst) k hnd hkeys with ⟨hl, hn, hm⟩
      have hres : applyCOp c (.removeOp k) =
          { c with lst := c.lst.eraseP (fun x => decide (x.1 = k)),
                   idx := c.idx.erase k } := by
        simp [applyCOp, cRemove, hk]
      rw [hres]
      refine ⟨⟨?_, ?_, ?_⟩, rfl⟩
      · rw [map_fst_eraseP]
        exact hn
      · apply Finset.ext
        intro x
        rw [map_fst_eraseP]
        simp only [Finset.mem_erase, List.mem_toFinset, hm x, hidx]
        tauto
      · show (c.lst.eraseP (fun x => decide (x.1 = k))).length ≤ c.capacity
        have e1 : (c.lst.eraseP (fun x => decide (x.1 = k))).length =
            ((c.lst.eraseP (fun x => decide (x.1 = k))).map Prod.fst).length :=
          (List.length_map _ _).symm
        rw [e1, map_fst_eraseP]
        have e2 : (c.lst.map Prod.fst).length = c.lst.length := List.length_map _ _
        omega
    · have hres : applyCOp c (.removeOp k) = c := by
        simp [applyCOp, cRemove, hk]
      rw [hres]
      exact ⟨⟨hnd, hidx, hlen⟩, rfl⟩

theorem coh_runCOps (ops : List CacheOp) : ∀ c : Cache, 0 < c.capacity → Coh c →
    Coh (runCOps c ops) ∧ (runCOps c ops).capacity = c.capacity := by
  induction ops with
  | nil => intro c _ hc; exact ⟨hc, rfl⟩
  | cons op rest ih =>
    intro c hcap hc
    rcases coh_applyCOp c op hcap hc with ⟨h1, h2⟩
    rcases ih (applyCOp c op) (h2 ▸ hcap) h1 with ⟨h3, h4⟩
    exact ⟨h3, by rw [runCOps, List.foldl_cons]; exact h4.trans h2⟩

/-- C7. For every operation sequence on a cache of positive capacity C,
    the number of live entries never exceeds C, the recency list length
    equals the hash index size, and a key is in the hash index iff it is
    the key of a non-sentinel list node. (Capacity 0 is excluded: there
    `removeTail` dereferences the head sentinel's null prev pointer.) -/
theorem cache_size_and_coherence (ops : List CacheOp) (cap : Nat) (hcap : 0 < cap) :
    (runCOps (emptyCache cap) ops).idx.card ≤ cap ∧
      (runCOps (emptyCache cap) ops).lst.length = (runCOps (emptyCache cap) ops).idx.card ∧
      ∀ k, k ∈ (runCOps (emptyCache cap) ops).idx ↔
        k ∈ (runCOps (emptyCache cap) ops).lst.map Prod.fst := by
  rcases coh_runCOps ops (emptyCache cap) hcap (coh_empty cap) with ⟨⟨hnd, hidx, hlen⟩, hc⟩
  have hcard : (runCOps (emptyCache cap) ops).idx.card =
      (runCOps (emptyCache cap) ops).lst.length := by
    rw [hidx, List.toFinset_card_of_nodup hnd, List.length_map]
  refine ⟨?_, hcard.symm, ?_⟩
  · rw [hcard]
    rw [hc] at hlen
    exact hlen
  · intro k
    rw [hidx]
    exact List.mem_toFinset

/-- C7 witness: a concrete sequence on capacity 2 keeps the cache coherent
    and within capacity. -/
theorem cache_size_and_coherence_witness :
    0 < 2 ∧
      ((runCOps (emptyCache 2) [CacheOp.putOp "a" "1", CacheOp.putOp "b" "2",
          CacheOp.getOp "a", CacheOp.putOp "c" "3", CacheOp.removeOp "a"]).idx.card ≤ 2 ∧
        (runCOps (emptyCache 2) [CacheOp.putOp "a" "1", CacheOp.putOp "b" "2",
          CacheOp.getOp "a", CacheOp.putOp "c" "3", CacheOp.removeOp "a"]).lst.length =
          (runCOps (emptyCache 2) [CacheOp.putOp "a" "1", CacheOp.putOp "b" "2",
            CacheOp.getOp "a", CacheOp.putOp "c" "3", CacheOp.removeOp "a"]).idx.card ∧
        ∀ k, k ∈ (runCOps (emptyCache 2) [CacheOp.putOp "a" "1", CacheOp.putOp "b" "2",
            CacheOp.getOp "a", CacheOp.putOp "c" "3", CacheOp.removeOp "a"]).idx ↔
          k ∈ (runCOps (emptyCache 2) [CacheOp.putOp "a" "1", CacheOp.putOp "b" "2",
            CacheOp.getOp "a", CacheOp.putOp "c" "3", CacheOp.removeOp "a"]).lst.map Prod.fst) :=
  ⟨by decide, cache_size_and_coherence _ 2 (by decide)⟩

/-- C8. Eviction is strict LRU: when a coherent cache at capacity receives a
    put of a fresh key, the node unlinked is the one immediately before the
    tail sentinel (the last real list node, i.e. the least recently used),
    its key is erased from the hash index, and the new entry is inserted at
    the head. -/
theorem cache_evicts_lru (c : Cache) (k v : String)
    (hk : k ∉ c.idx) (hfull : c.capacity ≤ c.idx.card) (hne : c.lst ≠ []) :
    ∃ e, c.lst.getLast? = some e ∧
      (cPut c k v).lst = (k, v) :: c.lst.dropLast ∧
      (cPut c k v).idx = insert k (c.idx.erase e.1) := by
  have hlast : c.lst.getLast? = some (c.lst.getLast hne) :=
    List.getLast?_eq_getLast c.lst hne
  refine ⟨c.lst.getLast hne, hlast, ?_, ?_⟩
  · simp [cPut, hk, hfull, hlast]
  · simp [cPut, hk, hfull, hlast]

/-- C8 witness: the claim's concrete scenario. Capacity 2; after
    put(a,1), put(b,2), get(a) the recency list is [a, b]; put(c,3)
    evicts b (the node before the tail sentinel), leaving exactly keys
    a and c resident with c most recent. -/
theorem cache_evicts_lru_witness :
    (runCOps (emptyCache 2) [CacheOp.putOp "a" "1", CacheOp.putOp "b" "2",
        CacheOp.getOp "a"]).lst.map Prod.fst = ["a", "b"] ∧
      (cPut (runCOps (emptyCache 2) [CacheOp.putOp "a" "1", CacheOp.putOp "b" "2",
        CacheOp.getOp "a"]) "c" "3").lst = ("c", "3") ::
          (runCOps (emptyCache 2) [CacheOp.putOp "a" "1", CacheOp.putOp "b" "2",
            CacheOp.getOp "a"]).lst.dropLast ∧
      (cPut (runCOps (emptyCache 2) [CacheOp.putOp "a" "1", CacheOp.putOp "b" "2",
        CacheOp.getOp "a"]) "c" "3").lst.map Prod.fst = ["c", "a"] ∧
      "b" ∉ (cPut (runCOps (emptyCache 2) [CacheOp.putOp "a" "1",
        CacheOp.putOp "b" "2", CacheOp.getOp "a"]) "c" "3").idx ∧
      "a" ∈ (cPut (runCOps (emptyCache 2) [CacheOp.putOp "a" "1",
        CacheOp.putOp "b" "2", CacheOp.getOp "a"]) "c" "3").idx ∧
      "c" ∈ (cPut (runCOps (emptyCache 2) [CacheOp.putOp "a" "1",
        CacheOp.putOp "b" "2", CacheOp.getOp "a"]) "c" "3").idx := by
  have h := cache_evicts_lru (runCOps (emptyCache 2) [CacheOp.putOp "a" "1",
    CacheOp.putOp "b" "2", CacheOp.getOp "a"]) "c" "3"
    (by decide) (by decide) (by decide)
  rcases h with ⟨e, _, h2, _⟩
  exact ⟨by decide, h2, by decide, by decide, by decide, by decide⟩

end LRUCache

/-! ## A node (class KVNode)

One storage engine plus one read cache of capacity 1000 behind the
put/get/remove triad. The replica-id bookkeeping list is not modelled: the
core never reads it. -/

namespace KVNode

/-- The state of one node. -/
structure Node where
  storage : StorageEngine.State
  cache : LRUCache.Cache

/-- `KVNode::KVNode(id)`: the storage engine opens `<id>.wal` in append mode
    and replays it; the cache starts empty with capacity 1000. -/
def mkNode (walContents : List Char) : Node :=
  { storage := { data := StorageEngine.loadFromWAL walContents,
                 wal := walContents, good := true },
    cache := LRUCache.emptyCache 1000 }

/-- `KVNode::put`: storage first, then cache. -/
def put (n : Node) (k v : String) : Node :=
  { storage := StorageEngine.put n.storage k v,
    cache := LRUCache.cPut n.cache k v }

/-- `KVNode::get`: try the cache (which splices on a hit); on an empty
    result fall back to storage, populating the cache on a storage hit. -/
def get (n : Node) (k : String) : String × Node :=
  let r := LRUCache.cGet n.cache k
  if r.1 ≠ "" then (r.1, { n with cache := r.2 })
  else
    let v2 := StorageEngine.get n.storage k
    if v2 ≠ "" then (v2, { n with cache := LRUCache.cPut r.2 k v2 })
    else (v2, { n with cache := r.2 })

/-- `KVNode::remove`: storage result is returned; the cache entry is
    dropped regardless. -/
def remove (n : Node) (k : String) : Bool × Node :=
  let r := StorageEngine.remove n.storage k
  (r.1, { storage := r.2, cache := (LRUCache.cRemove n.cache k).2 })

/-- `KVNode::putBatch`: storage batch, then cache entry-by-entry. -/
def putBatch (n : Node) (batch : List (String × String)) : Node :=
  { storage := StorageEngine.putBatch n.storage batch,
    cache := batch.foldl (fun c kv => LRUCache.cPut c kv.1 kv.2) n.cache }

/-- `KVNode::removeBatch`. -/
def removeBatch (n : Node) (keys : List String) : Node :=
  { storage := StorageEngine.removeBatch n.storage keys,
    cache := keys.foldl (fun c k => (LRUCache.cRemove c k).2) n.cache }

/-- `KVNode::getKeysForRedistribution`: the subset of the storage snapshot
    whose keys satisfy the predicate. -/
def getKeysForRedistribution (n : Node) (shouldMove : String → Bool) :
    List (String × String) :=
  n.storage.data.filter (fun kv => shouldMove kv.1)

end KVNode

/-! ## The cluster (class DistributedKVStore)

Owns the node map and the ring. `hasher` and the virtual-node count `vn`
are the parameters the C++ object captures at construction; `fs` records
the on-disk WAL file of every id without a live node (files survive node
removal and are re-read when an id is added). -/

namespace DistributedKVStore

/-- Cluster state. -/
structure Cluster where
  nodes : List (String × KVNode.Node)
  ring : List (Token × String)
  rf : Nat
  fs : String → List Char

/-- `nodes.find(id)`. -/
def findNode (ns : List (String × KVNode.Node)) (id : String) :
    Option KVNode.Node :=
  (ns.find? (fun p => decide (p.1 = id))).map Prod.snd

/-- Update the node stored under an id in place. -/
def modNode (ns : List (String × KVNode.Node)) (id : String)
    (f : KVNode.Node → KVNode.Node) : List (String × KVNode.Node) :=
  ns.map (fun p => if p.1 = id then (p.1, f p.2) else p)

/-- `nodes[node_id] = make_unique<KVNode>(node_id)`: replace or insert. -/
def insNode (ns : List (String × KVNode.Node)) (id : String)
    (n : KVNode.Node) : List (String × KVNode.Node) :=
  if (ns.find? (fun p => decide (p.1 = id))).isSome then modNode ns id (fun _ => n)
  else ns ++ [(id, n)]

/-- Contents of `<id>.wal` on disk: the live node's appended stream if one
    exists, else whatever the last removed node left behind. -/
def fileContent (c : Cluster) (id : String) : List Char :=
  match findNode c.nodes id with
  | some n => n.storage.wal
  | none => c.fs id

/-- `DistributedKVStore::put`: resolve the responsible nodes, fail with
    NoNodes when the ring is empty, else write to every registered
    responsible node. -/
def put (hasher : String → Nat) (c : Cluster) (k v : String) :
    Except Unit Cluster :=
  let resp := ConsistentHash.getNodes c.ring (hasher k % M32) c.rf
  let step := fun (ns : List (String × KVNode.Node)) (id : String) =>
    if (ns.find? (fun p => decide (p.1 = id))).isSome then
      modNode ns id (fun n => KVNode.put n k v)
    else ns
  if resp = [] then Except.error ()
  else Except.ok { c with nodes := resp.foldl step c.nodes }

/-- The replica-probing loop of `DistributedKVStore::get`: first non-empty
    value wins; node caches mutate along the way. -/
def getFromNodes (k : String) : List String → List (String × KVNode.Node) →
    String × List (String × KVNode.Node)
  | [], ns => ("", ns)
  | id :: rest, ns =>
    match findNode ns id with
    | none => getFromNodes k rest ns
    | some n =>
      if (KVNode.get n k).1 ≠ "" then
        ((KVNode.get n k).1, modNode ns id (fun _ => (KVNode.get n k).2))
      else getFromNodes k rest (modNode ns id (fun _ => (KVNode.get n k).2))

/-- `DistributedKVStore::get`. -/
def get (hasher : String → Nat) (c : Cluster) (k : String) : String × Cluster :=
  let resp := ConsistentHash.getNodes c.ring (hasher k % M32) c.rf
  let r := getFromNodes k resp c.nodes
  (r.1, { c with nodes := r.2 })

/-- `DistributedKVStore::remove`: OR of the per-replica results. -/
def remove (hasher : String → Nat) (c : Cluster) (k : String) : Bool × Cluster :=
  let resp := ConsistentHash.getNodes c.ring (hasher k % M32) c.rf
  let r := resp.foldl (fun (acc : Bool × List (String × KVNode.Node)) id =>
    match findNode acc.2 id with
    | none => acc
    | some n =>
      let rn := KVNode.remove n k
      (acc.1 || rn.1, modNode acc.2 id (fun _ => rn.2))) (false, c.nodes)
  (r.1, { c with nodes := r.2 })

/-- The keys the `redistributeOnAdd` predicate moves from node `nid` to the
    new node: primary was `nid` under the old ring and is the new node under
    the new ring. -/
def movedOf (hasher : String → Nat) (newId nid : String)
    (oldRing newRing : List (Token × String)) (n : KVNode.Node) :
    List (String × String) :=
  KVNode.getKeysForRedistribution n (fun key =>
    decide (ConsistentHash.getNode oldRing (hasher key % M32) = nid) &&
    decide (ConsistentHash.getNode newRing (hasher key % M32) = newId))

/-- One iteration of `redistributeOnAdd`'s loop over the existing nodes:
    keys whose primary was this node under the old ring and is the new node
    under the new ring are batch-put onto the new node and batch-removed
    from this one. -/
def redistStep (hasher : String → Nat) (newId : String)
    (oldRing newRing : List (Token × String))
    (acc : List (String × KVNode.Node)) (nid : String) :
    List (String × KVNode.Node) :=
  if nid = newId then acc
  else
    match findNode acc nid with
    | none => acc
    | some n =>
      if movedOf hasher newId nid oldRing newRing n = [] then acc
      else
        modNode (modNode acc newId
            (fun m => KVNode.putBatch m (movedOf hasher newId nid oldRing newRing n)))
          nid
          (fun m => KVNode.removeBatch m
            ((movedOf hasher newId nid oldRing newRing n).map Prod.fst))

/-- `DistributedKVStore::addNode`: create the node (replaying its WAL
    file), snapshot the old ring, register the tokens, then redistribute. -/
def addNode (hasher : String → Nat) (vn : Nat) (c : Cluster) (id : String) :
    Cluster :=
  let ns0 := insNode c.nodes id (KVNode.mkNode (fileContent c id))
  let newRing := ConsistentHash.addNode hasher vn c.ring id
  let ns1 := (ns0.map Prod.fst).foldl (redistStep hasher id c.ring newRing) ns0
  { c with nodes := ns1, ring := newRing }

/-- Group the per-key destinations of `redistributeOnRemove` into the
    redistribution plan (one batch per destination node). -/
def groupTargets (plan : List (String × String × String)) :
    List (String × List (String × String)) :=
  (plan.map Prod.fst).dedup.map (fun dest =>
    (dest, (plan.filter (fun e => decide (e.1 = dest))).map Prod.snd))

/-- The per-key destinations computed by `redistributeOnRemove`: each key of
    the departing node goes to its primary under the ring without that node,
    provided that primary names a registered node. -/
def removePlan (hasher : String → Nat) (vn : Nat) (c : Cluster) (id : String)
    (dep : KVNode.Node) : List (String × String × String) :=
  dep.storage.data.filterMap (fun kv =>
    if ConsistentHash.getNode (ConsistentHash.removeNode hasher vn c.ring id)
          (hasher kv.1 % M32) ≠ "" ∧
        (c.nodes.find? (fun p => decide (p.1 = ConsistentHash.getNode
          (ConsistentHash.removeNode hasher vn c.ring id)
          (hasher kv.1 % M32)))).isSome
    then some (ConsistentHash.getNode
        (ConsistentHash.removeNode hasher vn c.ring id) (hasher kv.1 % M32),
        kv.1, kv.2)
    else none)

/-- `DistributedKVStore::removeNode`: unknown ids are a silent no-op;
    otherwise every key on the departing node is sent to its primary under
    the ring without that node (when that primary is a registered node),
    and the node and its tokens are dropped. Its WAL file stays on disk. -/
def removeNode (hasher : String → Nat) (vn : Nat) (c : Cluster) (id : String) :
    Cluster :=
  match findNode c.nodes id with
  | none => c
  | some dep =>
    { nodes := ((groupTargets (removePlan hasher vn c id dep)).foldl
        (fun ns pr => modNode ns pr.1 (fun m => KVNode.putBatch m pr.2))
        c.nodes).filter (fun p => decide (p.1 ≠ id)),
      ring := ConsistentHash.removeNode hasher vn c.ring id,
      rf := c.rf,
      fs := fun x => if x = id then dep.storage.wal else c.fs x }

/-- A node holds a key when it is registered and the key is in its
    storage index. -/
def holdsKeyB (ns : List (String × KVNode.Node)) (nid k : String) : Bool :=
  match findNode ns nid with
  | some n => (StorageEngine.lookupA n.storage.data k).isSome
  | none => false

/-- The claim's data-preservation property: every key present in any
    node's storage index is held by at least one of the nodes that
    `getNodes` returns for it on the current ring. -/
def RespCov (hasher : String → Nat) (c : Cluster) : Prop :=
  ∀ p ∈ c.nodes, ∀ kv ∈ p.2.storage.data,
    ∃ nid ∈ ConsistentHash.getNodes c.ring (hasher kv.1 % M32) c.rf,
      holdsKeyB c.nodes nid kv.1 = true

/-- The stronger pre-state discipline under which membership changes do
    preserve coverage: every present key is held by its current primary. -/
def PrimCov (hasher : String → Nat) (c : Cluster) : Prop :=
  ∀ p ∈ c.nodes, ∀ kv ∈ p.2.storage.data,
    holdsKeyB c.nodes (ConsistentHash.getNode c.ring (hasher kv.1 % M32))
      kv.1 = true

end DistributedKVStore

namespace ConsistentHash

theorem walkAcc_const (count : Nat) (id : String) :
    ∀ l : List String, (∀ v ∈ l, v = id) → walkAcc count l [id] = [id] := by
  intro l
  induction l with
  | nil => intro _; rfl
  | cons v rest ih =>
    intro hl
    have hv : v = id := hl v (List.mem_cons_self v rest)
    have hrest : ∀ x ∈ rest, x = id := fun x hx => hl x (List.mem_cons_of_mem v hx)
    rw [walkAcc]
    by_cases hc : ([id] : List String).length < count
    · rw [if_pos hc, hv]
      have : insSorted id [id] = [id] := by
        rw [insSorted, if_neg (by simp [strLt_irrefl]), if_neg (by simp [strLt_irrefl])]
      rw [this]
      exact ih hrest
    · rw [if_neg hc]

theorem getNodes_const (r : List (Token × String)) (h count : Nat) (id : String)
    (hr : r ≠ []) (hvals : ∀ e ∈ r, e.2 = id) (hc : 0 < count) :
    getNodes r h count = [id] := by
  rw [getNodes, if_neg hr]
  have hrotvals : ∀ v ∈ (r.map Prod.snd).rotate (startIdx r h), v = id := by
    intro v hv
    have : v ∈ r.map Prod.snd := (List.rotate_perm _ _).mem_iff.mp hv
    rcases List.mem_map.mp this with ⟨e, he, rfl⟩
    exact hvals e he
  have hlen : ((r.map Prod.snd).rotate (startIdx r h)).length = r.length := by
    rw [List.length_rotate, List.length_map]
  rcases hrot : (r.map Prod.snd).rotate (startIdx r h) with _ | ⟨v0, rest⟩
  · rw [hrot] at hlen
    exact absurd (List.length_eq_zero.mp hlen.symm) hr
  · rw [hrot] at hrotvals
    have hv0 : v0 = id := hrotvals v0 (List.mem_cons_self v0 rest)
    have hrest : ∀ x ∈ rest, x = id := fun x hx =>
      hrotvals x (List.mem_cons_of_mem v0 hx)
    rw [walkAcc, if_pos (by simpa using hc), hv0]
    have hins : insSorted id [] = [id] := rfl
    rw [hins]
    exact walkAcc_const count id rest hrest

end ConsistentHash

namespace DistributedKVStore

theorem findNode_mem {ns : List (String × KVNode.Node)} {id : String}
    {n : KVNode.Node} (h : findNode ns id = some n) : (id, n) ∈ ns := by
  rcases hf : ns.find? (fun p => decide (p.1 = id)) with _ | p
  · rw [findNode, hf] at h
    cases h
  · rw [findNode, hf] at h
    have hp1 : p.1 = id := by simpa using List.find?_some hf
    have hp2 : p.2 = n := by simpa using h
    have : p ∈ ns := List.mem_of_find?_eq_some hf
    rw [← hp1, ← hp2]
    simpa using this

theorem modNode_not_mem (ns : List (String × KVNode.Node)) (id : String)
    (f : KVNode.Node → KVNode.Node) (h : id ∉ ns.map Prod.fst) :
    modNode ns id f = ns := by
  induction ns with
  | nil => rfl
  | cons p rest ih =>
    have hp : p.1 ≠ id := by
      intro he
      exact h (he ▸ List.mem_map_of_mem Prod.fst (List.mem_cons_self p rest))
    have hrest : id ∉ rest.map Prod.fst := by
      intro hm
      exact h (List.mem_cons_of_mem _ hm)
    rw [modNode] at ih ⊢
    rw [List.map_cons, if_neg hp, ih hrest]

theorem modNode_self_eq (ns : List (String × KVNode.Node)) (id : String)
    (n : KVNode.Node) (hnd : (ns.map Prod.fst).Nodup)
    (hfind : findNode ns id = some n) : modNode ns id (fun _ => n) = ns := by
  induction ns with
  | nil => cases hfind
  | cons p rest ih =>
    rw [List.map_cons] at hnd
    rcases List.nodup_cons.mp hnd with ⟨hp, hrest⟩
    by_cases he : p.1 = id
    · have hid : id ∉ rest.map Prod.fst := by
        rw [← he]
        exact hp
      have hrestEq : modNode rest id (fun _ => n) = rest :=
        modNode_not_mem rest id (fun _ => n) hid
      have hn : p.2 = n := by
        rw [findNode, List.find?_cons_of_pos _ (by simp [he])] at hfind
        simpa using hfind
      show (if p.1 = id then (p.1, n) else p) :: modNode rest id (fun _ => n) =
        p :: rest
      rw [if_pos he, hrestEq, ← hn]
    · have hfind2 : findNode rest id = some n := by
        rw [findNode, List.find?_cons_of_neg _ (by simp [he])] at hfind
        exact hfind
      show (if p.1 = id then (p.1, n) else p) :: modNode rest id (fun _ => n) =
        p :: rest
      rw [if_neg he, ih hrest hfind2]

/-- C9. On an empty ring, cluster put fails with NoNodes, cluster get
    returns the empty sentinel without error and without touching any
    state, and cluster remove returns false without error. -/
theorem empty_ring_ops (hasher : String → Nat) (c : Cluster) (k v : String)
    (hr : c.ring = []) :
    put hasher c k v = Except.error () ∧
      (get hasher c k).1 = "" ∧ (get hasher c k).2 = c ∧
      (remove hasher c k).1 = false ∧ (remove hasher c k).2 = c := by
  have hresp : ConsistentHash.getNodes c.ring (hasher k % M32) c.rf = [] := by
    rw [hr]
    rfl
  refine ⟨?_, ?_, ?_, ?_, ?_⟩
  · rw [put]
    simp [hresp]
  · rw [get]
    simp [hresp, getFromNodes]
  · rw [get]
    simp [hresp, getFromNodes]
  · rw [remove]
    simp [hresp]
  · rw [remove]
    simp [hresp]

/-- C9 witness: the concrete empty cluster. -/
theorem empty_ring_ops_witness :
    put (fun _ => 0) { nodes := [], ring := [], rf := 3, fs := fun _ => [] }
        "k" "v" = Except.error () ∧
      (get (fun _ => 0) { nodes := [], ring := [], rf := 3, fs := fun _ => [] }
        "k").1 = "" ∧
      (get (fun _ => 0) { nodes := [], ring := [], rf := 3, fs := fun _ => [] }
        "k").2 = { nodes := [], ring := [], rf := 3, fs := fun _ => [] } ∧
      (remove (fun _ => 0) { nodes := [], ring := [], rf := 3, fs := fun _ => [] }
        "k").1 = false ∧
      (remove (fun _ => 0) { nodes := [], ring := [], rf := 3, fs := fun _ => [] }
        "k").2 = { nodes := [], ring := [], rf := 3, fs := fun _ => [] } :=
  empty_ring_ops (fun _ => 0)
    { nodes := [], ring := [], rf := 3, fs := fun _ => [] } "k" "v" rfl

theorem getFromNodes_absent (k : String) (resp : List String) :
    ∀ ns : List (String × KVNode.Node), (ns.map Prod.fst).Nodup →
      (∀ p ∈ ns, k ∉ p.2.cache.idx ∧
        StorageEngine.lookupA p.2.storage.data k = none) →
      getFromNodes k resp ns = ("", ns) := by
  induction resp with
  | nil => intro ns _ _; rfl
  | cons id rest ih =>
    intro ns hnd habs
    rcases hf : findNode ns id with _ | n
    · rw [getFromNodes, hf]
      exact ih ns hnd habs
    · have hmem : (id, n) ∈ ns := findNode_mem hf
      rcases habs (id, n) hmem with ⟨hc, hs⟩
      have hget : KVNode.get n k = ("", n) := by
        rw [KVNode.get]
        simp only [LRUCache.cGet, if_neg hc]
        simp [StorageEngine.get, hs]
      have hmod : modNode ns id (fun _ => n) = ns :=
        modNode_self_eq ns id n hnd hf
      rw [getFromNodes, hf]
      simp only [hget, hmod]
      rw [if_neg (by simp)]
      exact ih ns hnd habs

/-- C10. A cluster get of a key absent from every node's cache and storage
    index returns the empty sentinel and leaves the entire cluster state
    unchanged: no cache entry is created, no recency order changes, and no
    storage index or WAL is modified. -/
theorem cluster_get_absent_frame (hasher : String → Nat) (c : Cluster)
    (k : String) (hnd : (c.nodes.map Prod.fst).Nodup)
    (habs : ∀ p ∈ c.nodes, k ∉ p.2.cache.idx ∧
      StorageEngine.lookupA p.2.storage.data k = none) :
    (get hasher c k).1 = "" ∧ (get hasher c k).2 = c := by
  have h := getFromNodes_absent k
    (ConsistentHash.getNodes c.ring (hasher k % M32) c.rf) c.nodes hnd habs
  constructor
  · show (getFromNodes k
      (ConsistentHash.getNodes c.ring (hasher k % M32) c.rf) c.nodes).1 = ""
    rw [h]
  · show { c with nodes := (getFromNodes k
      (ConsistentHash.getNodes c.ring (hasher k % M32) c.rf) c.nodes).2 } = c
    rw [h]

/-- A concrete one-node cluster used to instantiate cluster theorems. -/
def oneNodeCluster : Cluster :=
  { nodes := [("n", KVNode.mkNode [])], ring := [(5, "n")], rf := 3,
    fs := fun _ => [] }

/-- C10 witness: one-node cluster whose node knows nothing about the key. -/
theorem cluster_get_absent_frame_witness :
    (get (fun _ => 0) oneNodeCluster "k").1 = "" ∧
      (get (fun _ => 0) oneNodeCluster "k").2 = oneNodeCluster :=
  cluster_get_absent_frame (fun _ => 0) oneNodeCluster "k" (by decide)
    (by
      intro p hp
      rcases List.mem_singleton.mp hp with rfl
      exact ⟨by decide, by decide⟩)

theorem cGet_after_cPut (cache : LRUCache.Cache) (k v : String) :
    (LRUCache.cGet (LRUCache.cPut cache k v) k).1 = v := by
  rw [LRUCache.cPut]
  by_cases hk : k ∈ cache.idx
  · rw [if_pos hk, LRUCache.cGet]
    simp [hk, List.find?_cons_of_pos]
  · rw [if_neg hk, LRUCache.cGet]
    simp [List.find?_cons_of_pos]

/-- C4. On a cluster containing exactly one node, for every key and every
    non-empty value, a cluster put followed immediately by a cluster get
    returns that value. -/
theorem single_node_put_get (hasher : String → Nat) (c : Cluster) (id : String)
    (n : KVNode.Node) (k v : String) (hnodes : c.nodes = [(id, n)])
    (hr : c.ring ≠ []) (hvals : ∀ e ∈ c.ring, e.2 = id) (hrf : 1 ≤ c.rf)
    (hv : v ≠ "") :
    ∃ c2, put hasher c k v = Except.ok c2 ∧ (get hasher c2 k).1 = v := by
  have hresp : ConsistentHash.getNodes c.ring (hasher k % M32) c.rf = [id] :=
    ConsistentHash.getNodes_const c.ring (hasher k % M32) c.rf id hr hvals hrf
  have hfind : (c.nodes.find? (fun p => decide (p.1 = id))).isSome := by
    rw [hnodes]
    simp [List.find?_cons_of_pos]
  refine ⟨{ c with nodes := [(id, KVNode.put n k v)] }, ?_, ?_⟩
  · rw [put]
    simp only [hresp]
    rw [if_neg (by simp)]
    congr 1
    simp only [List.foldl_cons, List.foldl_nil, if_pos hfind]
    rw [hnodes, modNode]
    simp
  · rw [get]
    have hfind2 : findNode [(id, KVNode.put n k v)] id = some (KVNode.put n k v) := by
      rw [findNode]
      simp [List.find?_cons_of_pos]
    have hcache : (LRUCache.cGet (KVNode.put n k v).cache k).1 = v :=
      cGet_after_cPut n.cache k v
    have hnodeget : (KVNode.get (KVNode.put n k v) k).1 = v := by
      rw [KVNode.get]
      simp only [hcache]
      simp [hv]
    simp only [hresp, getFromNodes, hfind2, hnodeget]
    simp [hv]

/-- C4 witness: a concrete one-node cluster stores and returns the value. -/
theorem single_node_put_get_witness :
    ("v" : String) ≠ "" ∧
      ∃ c2, put (fun _ => 0) oneNodeCluster "k" "v" = Except.ok c2 ∧
        (get (fun _ => 0) c2 "k").1 = "v" :=
  ⟨by decide, single_node_put_get (fun _ => 0) oneNodeCluster "n"
    (KVNode.mkNode []) "k" "v" rfl (by decide) (by decide) (by decide)
    (by decide)⟩

end DistributedKVStore

/-! ## Generic find?/filter interaction lemmas -/

theorem find?_filter_of_found {α : Type} (p q : α → Bool) (l : List α) (e : α)
    (hf : l.find? p = some e) (hq : q e = true) :
    (l.filter q).find? p = some e := by
  induction l with
  | nil => cases hf
  | cons x xs ih =>
    by_cases hp : p x = true
    · rw [List.find?_cons_of_pos _ hp] at hf
      rcases Option.some.inj hf with rfl
      rw [List.filter_cons, if_pos hq, List.find?_cons_of_pos _ hp]
    · rw [List.find?_cons_of_neg _ hp] at hf
      rw [List.filter_cons]
      by_cases hqx : q x = true
      · rw [if_pos hqx, List.find?_cons_of_neg _ hp]
        exact ih hf
      · rw [if_neg hqx]
        exact ih hf

theorem find?_filter_of_none {α : Type} (p q : α → Bool) (l : List α)
    (hf : l.find? p = none) : (l.filter q).find? p = none := by
  rw [List.find?_eq_none] at hf ⊢
  intro x hx
  exact hf x (List.mem_of_mem_filter hx)

theorem find?_filter_subset {α : Type} (p keep : α → Bool) (l : List α)
    (h : ∀ x, p x = true → keep x = true) :
    (l.filter keep).find? p = l.find? p := by
  induction l with
  | nil => rfl
  | cons x xs ih =>
    by_cases hp : p x = true
    · rw [List.filter_cons, if_pos (h x hp), List.find?_cons_of_pos _ hp,
        List.find?_cons_of_pos _ hp]
    · rw [List.find?_cons_of_neg _ hp, List.filter_cons]
      by_cases hk : keep x = true
      · rw [if_pos hk, List.find?_cons_of_neg _ hp]
        exact ih
      · rw [if_neg hk]
        exact ih

namespace ConsistentHash

/-! ### getNode and getNodes membership lemmas for claim C1 -/

theorem getNode_eq_find (r : List (Token × String)) (h : Nat) (hr : r ≠ []) :
    getNode r h =
      match r.find? (fun e => decide (h ≤ e.1)) with
      | some e => e.2
      | none => ((r.head?).map Prod.snd).getD "" := by
  cases r with
  | nil => exact absurd rfl hr
  | cons e rest =>
    rw [getNode]
    rcases e with ⟨t1, v1⟩
    rcases hf : ((t1, v1) :: rest).find? (fun e => decide (h ≤ e.1)) with _ | x
    · rfl
    · rfl

theorem getNode_mem_values (r : List (Token × String)) (h : Nat) (hr : r ≠ []) :
    ∃ e ∈ r, getNode r h = e.2 := by
  rcases hf : r.find? (fun e => decide (h ≤ e.1)) with _ | e
  · cases r with
    | nil => exact absurd rfl hr
    | cons x rest =>
      refine ⟨x, List.mem_cons_self x rest, ?_⟩
      rw [getNode_eq_find _ h hr, hf]
      rfl
  · refine ⟨e, List.mem_of_find?_eq_some hf, ?_⟩
    rw [getNode_eq_find _ h hr, hf]

theorem find?_eq_get?_findIdx {α : Type} (p : α → Bool) :
    ∀ (l : List α) (e : α), l.find? p = some e → l.get? (l.findIdx p) = some e := by
  intro l
  induction l with
  | nil => intro e he; cases he
  | cons x xs ih =>
    intro e he
    by_cases hp : p x = true
    · rw [List.find?_cons_of_pos _ hp] at he
      rw [List.findIdx_cons, hp]
      simpa using he
    · rw [List.find?_cons_of_neg _ hp] at he
      rw [List.findIdx_cons, Bool.eq_false_iff.mpr hp]
      simpa using ih e he

theorem findIdx_eq_length_of_none {α : Type} (p : α → Bool) :
    ∀ l : List α, l.find? p = none → l.findIdx p = l.length := by
  intro l
  induction l with
  | nil => intro _; rfl
  | cons x xs ih =>
    intro hf
    by_cases hp : p x = true
    · rw [List.find?_cons_of_pos _ hp] at hf
      cases hf
    · rw [List.find?_cons_of_neg _ hp] at hf
      rw [List.findIdx_cons, Bool.eq_false_iff.mpr hp]
      simp [ih hf]

theorem rotate_head? {α : Type} (l : List α) (n : Nat) (hn : n < l.length) :
    (l.rotate n).head? = l.get? n := by
  rw [List.rotate_eq_drop_append_take (Nat.le_of_lt hn)]
  have hd : l.drop n ≠ [] := by
    intro hnil
    have := List.drop_eq_nil_iff_le.mp hnil
    omega
  cases hdrop : l.drop n with
  | nil => exact absurd hdrop hd
  | cons y ys =>
    have hy : l.get? n = some y := by
      have := List.head?_drop l n
      rw [hdrop] at this
      simpa using this.symm
    have hg : l[n]? = some y := by
      rw [← List.get?_eq_getElem?]
      exact hy
    simp [hdrop, hg]

theorem rotate_startIdx_head (r : List (Token × String)) (h : Nat) (hr : r ≠ []) :
    ((r.map Prod.snd).rotate (startIdx r h)).head? = some (getNode r h) := by
  rcases hf : r.find? (fun e => decide (h ≤ e.1)) with _ | e
  · have hidx : startIdx r h = r.length := findIdx_eq_length_of_none _ r hf
    have hrot : (r.map Prod.snd).rotate (startIdx r h) = r.map Prod.snd := by
      rw [hidx]
      have : r.length = (r.map Prod.snd).length := (List.length_map _ _).symm
      rw [this, List.rotate_length]
    rw [hrot, getNode_eq_find r h hr, hf]
    cases r with
    | nil => exact absurd rfl hr
    | cons x rest => simp
  · have hidx : r.get? (r.findIdx (fun e => decide (h ≤ e.1))) = some e :=
      find?_eq_get?_findIdx _ r e hf
    have hlt : r.findIdx (fun e => decide (h ≤ e.1)) < r.length := by
      by_contra hge
      rw [List.get?_eq_none.mpr (Nat.le_of_not_lt hge)] at hidx
      cases hidx
    have hlt2 : startIdx r h < (r.map Prod.snd).length := by
      rw [List.length_map]
      exact hlt
    rw [rotate_head? _ _ hlt2, List.get?_map, startIdx, hidx]
    rw [getNode_eq_find r h hr, hf]
    rfl

theorem mem_walkAcc_of_mem_acc (count : Nat) (x : String) :
    ∀ (l acc : List String), x ∈ acc → x ∈ walkAcc count l acc := by
  intro l
  induction l with
  | nil => intro acc hx; exact hx
  | cons v rest ih =>
    intro acc hx
    rw [walkAcc]
    by_cases hc : acc.length < count
    · rw [if_pos hc]
      exact ih _ (mem_insSorted.mpr (Or.inr hx))
    · rw [if_neg hc]
      exact hx

theorem getNode_mem_getNodes (r : List (Token × String)) (h count : Nat)
    (hr : r ≠ []) (hc : 0 < count) : getNode r h ∈ getNodes r h count := by
  rw [getNodes, if_neg hr]
  rcases hrot : (r.map Prod.snd).rotate (startIdx r h) with _ | ⟨v0, rest⟩
  · have := rotate_startIdx_head r h hr
    rw [hrot] at this
    cases this
  · have hhead := rotate_startIdx_head r h hr
    rw [hrot] at hhead
    have hv0 : v0 = getNode r h := by simpa using hhead
    rw [walkAcc, if_pos (by simpa using hc)]
    apply mem_walkAcc_of_mem_acc
    rw [← hv0]
    exact mem_insSorted.mpr (Or.inl rfl)

/-! ### How ring insertion moves the primary -/

theorem ringInsert_ne_nil (r : List (Token × String)) (t : Token) (v : String) :
    ringInsert r t v ≠ [] := by
  cases r with
  | nil => simp [ringInsert]
  | cons e rest =>
    rcases e with ⟨t1, v1⟩
    rw [ringInsert]
    by_cases h1 : t < t1
    · simp [h1]
    · by_cases h2 : t = t1
      · simp [h1, h2]
      · simp [h1, h2]

theorem find?_ringInsert (r : List (Token × String)) (t : Token) (v : String)
    (h : Nat) :
    (ringInsert r t v).find? (fun e => decide (h ≤ e.1)) =
        r.find? (fun e => decide (h ≤ e.1)) ∨
      (ringInsert r t v).find? (fun e => decide (h ≤ e.1)) = some (t, v) := by
  induction r with
  | nil =>
    rw [ringInsert]
    by_cases hp : h ≤ t
    · right
      rw [List.find?_cons_of_pos _ (by simpa using hp)]
    · left
      rw [List.find?_cons_of_neg _ (by simpa using hp)]
  | cons e rest ih =>
    rcases e with ⟨t1, v1⟩
    rw [ringInsert]
    by_cases h1 : t < t1
    · rw [if_pos h1]
      by_cases hp : h ≤ t
      · right
        rw [List.find?_cons_of_pos _ (by simpa using hp)]
      · left
        rw [List.find?_cons_of_neg _ (by simpa using hp)]
    · rw [if_neg h1]
      by_cases h2 : t = t1
      · rw [if_pos h2]
        by_cases hp : h ≤ t
        · right
          rw [List.find?_cons_of_pos _ (by simpa using hp)]
        · left
          rw [List.find?_cons_of_neg _ (by simpa using hp),
            List.find?_cons_of_neg _ (by simpa [← h2] using hp)]
      · rw [if_neg h2]
        by_cases hp : h ≤ t1
        · left
          rw [List.find?_cons_of_pos _ (by simpa using hp),
            List.find?_cons_of_pos _ (by simpa using hp)]
        · rw [List.find?_cons_of_neg _ (by simpa using hp),
            List.find?_cons_of_neg _ (by simpa using hp)]
          exact ih

theorem head?_ringInsert (r : List (Token × String)) (t : Token) (v : String) :
    (ringInsert r t v).head? = r.head? ∨ (ringInsert r t v).head? = some (t, v) := by
  cases r with
  | nil => right; rfl
  | cons e rest =>
    rcases e with ⟨t1, v1⟩
    rw [ringInsert]
    by_cases h1 : t < t1
    · right; rw [if_pos h1]; rfl
    · rw [if_neg h1]
      by_cases h2 : t = t1
      · right; rw [if_pos h2]; rfl
      · left; rw [if_neg h2]; rfl

theorem getNode_ringInsert (r : List (Token × String)) (t : Token) (v : String)
    (h : Nat) :
    getNode (ringInsert r t v) h = getNode r h ∨
      getNode (ringInsert r t v) h = v := by
  by_cases hr : r = []
  · subst hr
    rw [getNode_eq_find _ h (ringInsert_ne_nil [] t v)]
    rw [ringInsert]
    by_cases hp : h ≤ t
    · right
      rw [List.find?_cons_of_pos _ (by simpa using hp)]
    · right
      rw [List.find?_cons_of_neg _ (by simpa using hp)]
      rfl
  · rw [getNode_eq_find _ h (ringInsert_ne_nil r t v), getNode_eq_find r h hr]
    rcases find?_ringInsert r t v h with hf | hf
    · rcases hfr : r.find? (fun e => decide (h ≤ e.1)) with _ | e
      · rw [hf, hfr]
        rcases head?_ringInsert r t v with hh | hh
        · rw [hh]
          left
          rfl
        · rw [hh]
          right
          rfl
      · rw [hf, hfr]
        left
        rfl
    · rw [hf]
      right
      rfl

theorem getNode_foldl_ringInsert (id : String) (h : Nat) :
    ∀ (ts : List Token) (r : List (Token × String)),
      getNode (ts.foldl (fun acc t => ringInsert acc t id) r) h = getNode r h ∨
        getNode (ts.foldl (fun acc t => ringInsert acc t id) r) h = id := by
  intro ts
  induction ts with
  | nil => intro r; left; rfl
  | cons t rest ih =>
    intro r
    rw [List.foldl_cons]
    rcases ih (ringInsert r t id) with hcase | hcase
    · rcases getNode_ringInsert r t id h with h2 | h2
      · left; rw [hcase, h2]
      · right; rw [hcase, h2]
    · right; exact hcase

theorem getNode_addNode (hasher : String → Nat) (vn : Nat)
    (r : List (Token × String)) (id : String) (h : Nat) :
    getNode (addNode hasher vn r id) h = getNode r h ∨
      getNode (addNode hasher vn r id) h = id :=
  getNode_foldl_ringInsert id h (nodeTokens hasher vn id) r

theorem foldl_ringInsert_ne_nil (id : String) :
    ∀ (ts : List Token) (r : List (Token × String)), r ≠ [] →
      ts.foldl (fun acc t => ringInsert acc t id) r ≠ [] := by
  intro ts
  induction ts with
  | nil => intro r hr; exact hr
  | cons t rest ih =>
    intro r _
    rw [List.foldl_cons]
    exact ih (ringInsert r t id) (ringInsert_ne_nil r t id)

theorem addNode_ne_nil (hasher : String → Nat) (vn : Nat)
    (r : List (Token × String)) (id : String) (hvn : 0 < vn) :
    addNode hasher vn r id ≠ [] := by
  rw [addNode]
  rcases ht : nodeTokens hasher vn id with _ | ⟨t0, ts⟩
  · have : (nodeTokens hasher vn id).length = vn := by
      rw [nodeTokens, List.length_map, List.length_range]
    rw [ht] at this
    simp at this
    omega
  · rw [List.foldl_cons]
    exact foldl_ringInsert_ne_nil id ts _ (ringInsert_ne_nil r t0 id)

theorem mem_ringInsert (r : List (Token × String)) (t : Token) (v : String)
    (e : Token × String) (he : e ∈ ringInsert r t v) : e ∈ r ∨ e = (t, v) := by
  induction r with
  | nil =>
    rw [ringInsert] at he
    right
    simpa using he
  | cons x rest ih =>
    rcases x with ⟨t1, v1⟩
    rw [ringInsert] at he
    by_cases h1 : t < t1
    · rw [if_pos h1] at he
      rcases List.mem_cons.mp he with rfl | he2
      · right; rfl
      · left; exact he2
    · rw [if_neg h1] at he
      by_cases h2 : t = t1
      · rw [if_pos h2] at he
        rcases List.mem_cons.mp he with rfl | he2
        · right; rfl
        · left; exact List.mem_cons_of_mem _ he2
      · rw [if_neg h2] at he
        rcases List.mem_cons.mp he with rfl | he2
        · left; exact List.mem_cons_self _ _
        · rcases ih he2 with h3 | h3
          · left; exact List.mem_cons_of_mem _ h3
          · right; exact h3

theorem mem_addNode (hasher : String → Nat) (vn : Nat) (id : String) :
    ∀ (ts : List Token) (r : List (Token × String)) (e : Token × String),
      e ∈ ts.foldl (fun acc t => ringInsert acc t id) r → e ∈ r ∨ e.2 = id := by
  intro ts
  induction ts with
  | nil => intro r e he; left; exact he
  | cons t rest ih =>
    intro r e he
    rw [List.foldl_cons] at he
    rcases ih (ringInsert r t id) e he with h1 | h1
    · rcases mem_ringInsert r t id e h1 with h2 | h2
      · left; exact h2
      · right; rw [h2]
    · right; exact h1

/-! ### How ring erasure (node removal) moves the primary -/

theorem removeNode_eq_filter_tokens (hasher : String → Nat) (vn : Nat)
    (id : String) :
    ∀ (ts : List Token) (r : List (Token × String)),
      ts.foldl (fun acc t => ringErase acc t) r =
        r.filter (fun e => decide (e.1 ∉ ts)) := by
  intro ts
  induction ts with
  | nil =>
    intro r
    simp
  | cons t rest ih =>
    intro r
    rw [List.foldl_cons, ih (ringErase r t), ringErase, List.filter_filter]
    apply List.filter_congr
    intro e _
    by_cases h1 : e.1 = t
    · simp [h1]
    · by_cases h2 : e.1 ∈ rest
      · simp [h1, h2]
      · simp [h1, h2]

theorem removeNode_eq_filter_value (hasher : String → Nat) (vn : Nat)
    (r : List (Token × String)) (id : String)
    (hre : ∀ e ∈ r, e.1 ∈ nodeTokens hasher vn e.2)
    (htok : ∀ e ∈ r, e.1 ∈ nodeTokens hasher vn id → e.2 = id) :
    removeNode hasher vn r id = r.filter (fun e => decide (e.2 ≠ id)) := by
  rw [removeNode, removeNode_eq_filter_tokens hasher vn id]
  apply List.filter_congr
  intro e he
  by_cases hm : e.1 ∈ nodeTokens hasher vn id
  · have : e.2 = id := htok e he hm
    simp [hm, this]
  · have : e.2 ≠ id := by
      intro heq
      exact hm (heq ▸ hre e he)
    simp [hm, this]

theorem getNode_filter_value (r : List (Token × String)) (h : Nat) (D : String)
    (hr : r ≠ []) (hne : getNode r h ≠ D) :
    getNode (r.filter (fun e => decide (e.2 ≠ D))) h = getNode r h ∧
      r.filter (fun e => decide (e.2 ≠ D)) ≠ [] := by
  rcases hf : r.find? (fun e => decide (h ≤ e.1)) with _ | e
  · cases r with
    | nil => exact absurd rfl hr
    | cons x rest =>
      have hx : getNode (x :: rest) h = x.2 := by
        rw [getNode_eq_find _ h hr, hf]
        rfl
      have hkeep : decide (x.2 ≠ D) = true := by
        rw [hx] at hne
        simpa using hne
      have hfilter : (x :: rest).filter (fun e => decide (e.2 ≠ D)) =
          x :: rest.filter (fun e => decide (e.2 ≠ D)) := by
        rw [List.filter_cons, if_pos hkeep]
      have hfnone : ((x :: rest).filter (fun e => decide (e.2 ≠ D))).find?
          (fun e => decide (h ≤ e.1)) = none :=
        find?_filter_of_none _ _ _ hf
      constructor
      · rw [getNode_eq_find _ h (by rw [hfilter]; simp), hfnone, hfilter]
        rw [hx]
        rfl
      · rw [hfilter]
        simp
  · have he2 : getNode r h = e.2 := by
      rw [getNode_eq_find _ h hr, hf]
    have hkeep : (fun e => decide ((Prod.snd e) ≠ D)) e = true := by
      rw [he2] at hne
      simpa using hne
    have hffound := find?_filter_of_found (fun e => decide (h ≤ e.1))
      (fun e => decide (e.2 ≠ D)) r e hf hkeep
    have hnnil : r.filter (fun e => decide (e.2 ≠ D)) ≠ [] := by
      intro hnil
      rw [hnil] at hffound
      cases hffound
    constructor
    · rw [getNode_eq_find _ h hnnil, hffound, he2]
    · exact hnnil

theorem mem_filter_value_ne (r : List (Token × String)) (D : String)
    (e : Token × String) (he : e ∈ r.filter (fun x => decide (x.2 ≠ D))) :
    e ∈ r ∧ e.2 ≠ D := by
  constructor
  · exact List.mem_of_mem_filter he
  · have := List.of_mem_filter he
    simpa using this

end ConsistentHash

namespace DistributedKVStore

/-! ### Node-map bookkeeping lemmas -/

theorem modNode_map_fst (ns : List (String × KVNode.Node)) (id : String)
    (f : KVNode.Node → KVNode.Node) :
    (modNode ns id f).map Prod.fst = ns.map Prod.fst := by
  induction ns with
  | nil => rfl
  | cons p rest ih =>
    by_cases hp : p.1 = id
    · show ((if p.1 = id then (p.1, f p.2) else p).1 :: _) = _
      rw [if_pos hp]
      show p.1 :: (modNode rest id f).map Prod.fst = p.1 :: rest.map Prod.fst
      rw [ih]
    · show ((if p.1 = id then (p.1, f p.2) else p).1 :: _) = _
      rw [if_neg hp]
      show p.1 :: (modNode rest id f).map Prod.fst = p.1 :: rest.map Prod.fst
      rw [ih]

theorem findNode_modNode (ns : List (String × KVNode.Node)) (id q : String)
    (f : KVNode.Node → KVNode.Node) :
    findNode (modNode ns id f) q =
      if q = id then (findNode ns id).map f else findNode ns q := by
  induction ns with
  | nil => by_cases hq : q = id <;> simp [modNode, findNode, hq]
  | cons p rest ih =>
    have hstep : modNode (p :: rest) id f =
        (if p.1 = id then (p.1, f p.2) else p) :: modNode rest id f := rfl
    have hheadkey : (if p.1 = id then (p.1, f p.2) else p).1 = p.1 := by
      by_cases h : p.1 = id <;> simp [h]
    by_cases hpq : p.1 = q
    · by_cases hpid : p.1 = id
      · have hqid : q = id := by rw [← hpq, hpid]
        have hL : findNode (modNode (p :: rest) id f) q = some (f p.2) := by
          rw [hstep, findNode,
            List.find?_cons_of_pos _ (by rw [hheadkey]; simp [hpq])]
          simp [hpid]
        have hR : findNode (p :: rest) id = some p.2 := by
          rw [findNode, List.find?_cons_of_pos _ (by simp [hpid])]
          rfl
        rw [hL, if_pos hqid, hR]
        rfl
      · have hqid : q ≠ id := by rw [← hpq]; exact hpid
        rw [hstep, if_neg hpid, if_neg hqid, findNode,
          List.find?_cons_of_pos _ (by simp [hpq]), findNode,
          List.find?_cons_of_pos _ (by simp [hpq])]
    · rw [hstep, findNode,
        List.find?_cons_of_neg _ (by rw [hheadkey]; simp [hpq])]
      by_cases hqid : q = id
      · have hpid : p.1 ≠ id := by rw [← hqid]; exact hpq
        rw [if_pos hqid, findNode, hqid,
          List.find?_cons_of_neg _ (by simp [hpid])]
        have := ih
        rw [if_pos hqid, findNode] at this
        rw [hqid] at this
        exact this
      · rw [if_neg hqid, findNode, List.find?_cons_of_neg _ (by simp [hpq])]
        have := ih
        rw [if_neg hqid, findNode] at this
        exact this

theorem findNode_of_mem (ns : List (String × KVNode.Node))
    (hnd : (ns.map Prod.fst).Nodup) (p : String × KVNode.Node) (hp : p ∈ ns) :
    findNode ns p.1 = some p.2 := by
  induction ns with
  | nil => cases hp
  | cons x rest ih =>
    rw [List.map_cons] at hnd
    rcases List.nodup_cons.mp hnd with ⟨hx, hrest⟩
    rcases List.mem_cons.mp hp with rfl | hp2
    · rw [findNode, List.find?_cons_of_pos _ (by simp)]
      rfl
    · have hne : x.1 ≠ p.1 := by
        intro he
        exact hx (he ▸ List.mem_map_of_mem Prod.fst hp2)
      rw [findNode, List.find?_cons_of_neg _ (by simp [hne])]
      exact ih hrest hp2

theorem find?_append_of_some {α : Type} (p : α → Bool) (l1 l2 : List α) (e : α)
    (h : l1.find? p = some e) : (l1 ++ l2).find? p = some e := by
  induction l1 with
  | nil => cases h
  | cons x rest ih =>
    by_cases hx : p x = true
    · rw [List.find?_cons_of_pos _ hx] at h
      rw [List.cons_append, List.find?_cons_of_pos _ hx]
      exact h
    · rw [List.find?_cons_of_neg _ hx] at h
      rw [List.cons_append, List.find?_cons_of_neg _ hx]
      exact ih h

theorem find?_append_of_none {α : Type} (p : α → Bool) (l1 l2 : List α)
    (h : l1.find? p = none) : (l1 ++ l2).find? p = l2.find? p := by
  induction l1 with
  | nil => rfl
  | cons x rest ih =>
    by_cases hx : p x = true
    · rw [List.find?_cons_of_pos _ hx] at h
      cases h
    · rw [List.find?_cons_of_neg _ hx] at h
      rw [List.cons_append, List.find?_cons_of_neg _ hx]
      exact ih h

theorem findNode_append_single_ne (ns : List (String × KVNode.Node))
    (id : String) (n : KVNode.Node) (q : String) (hq : q ≠ id) :
    findNode (ns ++ [(id, n)]) q = findNode ns q := by
  rw [findNode, findNode]
  rcases hf : ns.find? (fun p => decide (p.1 = q)) with _ | e
  · rw [find?_append_of_none _ _ _ hf,
      List.find?_cons_of_neg _ (by simp [Ne.symm hq]), hf]
    rfl
  · rw [find?_append_of_some _ _ _ _ hf, hf]

theorem findNode_append_single_self (ns : List (String × KVNode.Node))
    (id : String) (n : KVNode.Node)
    (hfresh : (ns.find? (fun p => decide (p.1 = id))).isSome = false) :
    findNode (ns ++ [(id, n)]) id = some n := by
  rcases hf : ns.find? (fun p => decide (p.1 = id)) with _ | e
  · rw [findNode, find?_append_of_none _ _ _ hf,
      List.find?_cons_of_pos _ (by simp)]
    rfl
  · rw [hf] at hfresh
    simp at hfresh

/-! ### Storage-index facts used through batched moves -/

theorem lookupA_isSome_of_mem {d : List (String × String)}
    {kv : String × String} (h : kv ∈ d) :
    (StorageEngine.lookupA d kv.1).isSome = true := by
  rw [StorageEngine.lookupA]
  rcases hf : d.find? (fun e => decide (e.1 = kv.1)) with _ | e
  · have := List.find?_eq_none.mp hf kv h
    simp at this
  · rw [hf]
    rfl

theorem mem_of_lookupA_isSome {d : List (String × String)} {k : String}
    (h : (StorageEngine.lookupA d k).isSome = true) : ∃ v, (k, v) ∈ d := by
  rw [StorageEngine.lookupA] at h
  rcases hf : d.find? (fun e => decide (e.1 = k)) with _ | e
  · rw [hf] at h
    simp at h
  · have hek : e.1 = k := by simpa using List.find?_some hf
    have hem : e ∈ d := List.mem_of_find?_eq_some hf
    exact ⟨e.2, by rw [← hek]; simpa using hem⟩

theorem lookupA_foldl_insA_keeps (batch : List (String × String)) :
    ∀ (d : List (String × String)) (q : String),
      (StorageEngine.lookupA d q).isSome = true →
      (StorageEngine.lookupA
        (batch.foldl (fun d kv => StorageEngine.insA d kv.1 kv.2) d) q).isSome = true := by
  induction batch with
  | nil => intro d q h; exact h
  | cons kv rest ih =>
    intro d q h
    rw [List.foldl_cons]
    apply ih
    rw [StorageEngine.lookupA_insA]
    by_cases hq : q = kv.1
    · simp [hq]
    · rw [if_neg hq]
      exact h

theorem lookupA_putBatch_mem (batch : List (String × String)) :
    ∀ (d : List (String × String)) (q : String), q ∈ batch.map Prod.fst →
      (StorageEngine.lookupA
        (batch.foldl (fun d kv => StorageEngine.insA d kv.1 kv.2) d) q).isSome = true := by
  induction batch with
  | nil => intro d q h; cases h
  | cons kv rest ih =>
    intro d q h
    rw [List.foldl_cons]
    rcases List.mem_cons.mp h with rfl | h2
    · apply lookupA_foldl_insA_keeps
      rw [StorageEngine.lookupA_insA]
      simp
    · exact ih _ q h2

theorem lookupA_putBatch_not_mem (batch : List (String × String)) :
    ∀ (d : List (String × String)) (q : String), q ∉ batch.map Prod.fst →
      StorageEngine.lookupA
        (batch.foldl (fun d kv => StorageEngine.insA d kv.1 kv.2) d) q =
        StorageEngine.lookupA d q := by
  induction batch with
  | nil => intro d q _; rfl
  | cons kv rest ih =>
    intro d q h
    have hq : q ≠ kv.1 := by
      intro he
      exact h (he ▸ List.mem_map_of_mem Prod.fst (List.mem_cons_self kv rest))
    have h2 : q ∉ rest.map Prod.fst := by
      intro hm
      exact h (List.mem_cons_of_mem _ hm)
    rw [List.foldl_cons, ih _ q h2, StorageEngine.lookupA_insA, if_neg hq]

theorem lookupA_removeBatch (keys : List String) :
    ∀ (d : List (String × String)) (q : String),
      StorageEngine.lookupA (keys.foldl StorageEngine.eraseA d) q =
        if q ∈ keys then none else StorageEngine.lookupA d q := by
  induction keys with
  | nil => intro d q; simp
  | cons k0 rest ih =>
    intro d q
    rw [List.foldl_cons, ih _ q, StorageEngine.lookupA_eraseA]
    by_cases h1 : q ∈ rest
    · simp [h1]
    · by_cases h2 : q = k0
      · simp [h1, h2]
      · simp [h1, h2]

end DistributedKVStore

namespace DistributedKVStore

/-! ### Behaviour of the redistributeOnAdd loop -/

theorem putBatch_data (m : KVNode.Node) (batch : List (String × String)) :
    (KVNode.putBatch m batch).storage.data =
      batch.foldl (fun d kv => StorageEngine.insA d kv.1 kv.2) m.storage.data := rfl

theorem removeBatch_data (m : KVNode.Node) (keys : List String) :
    (KVNode.removeBatch m keys).storage.data =
      keys.foldl StorageEngine.eraseA m.storage.data := rfl

theorem mem_movedOf_keys (hasher : String → Nat) (newId nid : String)
    (oldRing newRing : List (Token × String)) (n : KVNode.Node) (k : String) :
    k ∈ (movedOf hasher newId nid oldRing newRing n).map Prod.fst ↔
      (∃ v, (k, v) ∈ n.storage.data) ∧
        ConsistentHash.getNode oldRing (hasher k % M32) = nid ∧
        ConsistentHash.getNode newRing (hasher k % M32) = newId := by
  rw [movedOf, KVNode.getKeysForRedistribution]
  constructor
  · intro h
    rcases List.mem_map.mp h with ⟨e, he, rfl⟩
    have hmem : e ∈ n.storage.data := List.mem_of_mem_filter he
    have hpred := List.of_mem_filter he
    simp only [Bool.and_eq_true, decide_eq_true_eq] at hpred
    exact ⟨⟨e.2, by simpa using hmem⟩, hpred.1, hpred.2⟩
  · rintro ⟨⟨v, hv⟩, h1, h2⟩
    apply List.mem_map.mpr
    exact ⟨(k, v), List.mem_filter.mpr ⟨hv, by simp [h1, h2]⟩, rfl⟩

theorem redistStep_cases (hasher : String → Nat) (newId : String)
    (oldRing newRing : List (Token × String))
    (acc : List (String × KVNode.Node)) (nid : String) :
    redistStep hasher newId oldRing newRing acc nid = acc ∨
      ∃ n, nid ≠ newId ∧ findNode acc nid = some n ∧
        movedOf hasher newId nid oldRing newRing n ≠ [] ∧
        redistStep hasher newId oldRing newRing acc nid =
          modNode (modNode acc newId
              (fun m => KVNode.putBatch m (movedOf hasher newId nid oldRing newRing n)))
            nid
            (fun m => KVNode.removeBatch m
              ((movedOf hasher newId nid oldRing newRing n).map Prod.fst)) := by
  rw [redistStep]
  by_cases h1 : nid = newId
  · left
    rw [if_pos h1]
  · rw [if_neg h1]
    rcases hf : findNode acc nid with _ | n
    · left
      rfl
    · by_cases hm : movedOf hasher newId nid oldRing newRing n = []
      · left
        show (if movedOf hasher newId nid oldRing newRing n = [] then acc else _) = acc
        rw [if_pos hm]
      · right
        refine ⟨n, h1, rfl, hm, ?_⟩
        show (if movedOf hasher newId nid oldRing newRing n = [] then acc else _) = _
        rw [if_neg hm]

theorem redistStep_map_fst (hasher : String → Nat) (newId : String)
    (oldRing newRing : List (Token × String))
    (acc : List (String × KVNode.Node)) (nid : String) :
    (redistStep hasher newId oldRing newRing acc nid).map Prod.fst =
      acc.map Prod.fst := by
  rcases redistStep_cases hasher newId oldRing newRing acc nid with
    h | ⟨n, _, _, _, h⟩
  · rw [h]
  · rw [h, modNode_map_fst, modNode_map_fst]

theorem redist_fold_map_fst (hasher : String → Nat) (newId : String)
    (oldRing newRing : List (Token × String)) (ids : List String) :
    ∀ acc, ((ids.foldl (redistStep hasher newId oldRing newRing) acc).map
      Prod.fst) = acc.map Prod.fst := by
  induction ids with
  | nil => intro acc; rfl
  | cons nid rest ih =>
    intro acc
    rw [List.foldl_cons, ih, redistStep_map_fst]

theorem redistStep_keeps_newId (hasher : String → Nat) (newId : String)
    (oldRing newRing : List (Token × String))
    (acc : List (String × KVNode.Node)) (nid k : String)
    (h : ∃ m, findNode acc newId = some m ∧
      (StorageEngine.lookupA m.storage.data k).isSome = true) :
    ∃ m2, findNode (redistStep hasher newId oldRing newRing acc nid) newId =
        some m2 ∧ (StorageEngine.lookupA m2.storage.data k).isSome = true := by
  rcases redistStep_cases hasher newId oldRing newRing acc nid with
    hcase | ⟨n, hne, hfn, hmn, hcase⟩
  · rw [hcase]
    exact h
  · rcases h with ⟨m, hfm, hlm⟩
    rw [hcase, findNode_modNode, if_neg (fun he => hne he.symm),
      findNode_modNode, if_pos rfl, hfm]
    refine ⟨_, rfl, ?_⟩
    rw [putBatch_data]
    by_cases hk : k ∈ (movedOf hasher newId nid oldRing newRing n).map Prod.fst
    · exact lookupA_putBatch_mem _ _ _ hk
    · rw [lookupA_putBatch_not_mem _ _ _ hk]
      exact hlm

theorem redist_fold_keeps_newId (hasher : String → Nat) (newId : String)
    (oldRing newRing : List (Token × String)) (ids : List String) (k : String) :
    ∀ acc, (∃ m, findNode acc newId = some m ∧
        (StorageEngine.lookupA m.storage.data k).isSome = true) →
      ∃ m2, findNode (ids.foldl (redistStep hasher newId oldRing newRing) acc)
          newId = some m2 ∧
        (StorageEngine.lookupA m2.storage.data k).isSome = true := by
  induction ids with
  | nil => intro acc h; exact h
  | cons nid rest ih =>
    intro acc h
    rw [List.foldl_cons]
    exact ih _ (redistStep_keeps_newId hasher newId oldRing newRing acc nid k h)

theorem redist_fold_lands (hasher : String → Nat) (newId : String)
    (oldRing newRing : List (Token × String)) (k P : String)
    (nP : KVNode.Node) (hPne : P ≠ newId)
    (hpredOld : ConsistentHash.getNode oldRing (hasher k % M32) = P)
    (hpredNew : ConsistentHash.getNode newRing (hasher k % M32) = newId) :
    ∀ (ids : List String) (acc : List (String × KVNode.Node)),
      P ∈ ids → findNode acc P = some nP →
      (StorageEngine.lookupA nP.storage.data k).isSome = true →
      (∃ m, findNode acc newId = some m) →
      ∃ m2, findNode (ids.foldl (redistStep hasher newId oldRing newRing) acc)
          newId = some m2 ∧
        (StorageEngine.lookupA m2.storage.data k).isSome = true := by
  intro ids
  induction ids with
  | nil => intro acc hmem; cases hmem
  | cons nid rest ih =>
    intro acc hmem hfP hlP hNew
    rw [List.foldl_cons]
    by_cases hnidP : nid = P
    · subst hnidP
      have hkmem : k ∈ (movedOf hasher newId nid oldRing newRing nP).map
          Prod.fst := by
        apply (mem_movedOf_keys hasher newId nid oldRing newRing nP k).mpr
        exact ⟨mem_of_lookupA_isSome hlP, hpredOld, hpredNew⟩
      have hmne : movedOf hasher newId nid oldRing newRing nP ≠ [] := by
        intro hnil
        rw [hnil] at hkmem
        simp at hkmem
      have hstep : redistStep hasher newId oldRing newRing acc nid =
          modNode (modNode acc newId
              (fun m => KVNode.putBatch m (movedOf hasher newId nid oldRing newRing nP)))
            nid
            (fun m => KVNode.removeBatch m
              ((movedOf hasher newId nid oldRing newRing nP).map Prod.fst)) := by
        rw [redistStep, if_neg hPne, hfP]
        show (if movedOf hasher newId nid oldRing newRing nP = [] then acc
          else _) = _
        rw [if_neg hmne]
      rcases hNew with ⟨m, hm⟩
      apply redist_fold_keeps_newId hasher newId oldRing newRing rest k
      rw [hstep, findNode_modNode, if_neg (fun he => hPne he.symm),
        findNode_modNode, if_pos rfl, hm]
      refine ⟨_, rfl, ?_⟩
      rw [putBatch_data]
      exact lookupA_putBatch_mem _ _ _ hkmem
    · have hfP2 : findNode (redistStep hasher newId oldRing newRing acc nid) P =
          some nP := by
        rcases redistStep_cases hasher newId oldRing newRing acc nid with
          hcase | ⟨n, hne, hfn, hmn, hcase⟩
        · rw [hcase]
          exact hfP
        · rw [hcase, findNode_modNode, if_neg (fun he => hnidP he.symm),
            findNode_modNode, if_neg hPne]
          exact hfP
      have hNew2 : ∃ m, findNode (redistStep hasher newId oldRing newRing acc
          nid) newId = some m := by
        rcases hNew with ⟨m, hm⟩
        rcases redistStep_cases hasher newId oldRing newRing acc nid with
          hcase | ⟨n, hne, hfn, hmn, hcase⟩
        · rw [hcase]
          exact ⟨m, hm⟩
        · rw [hcase, findNode_modNode, if_neg (fun he => hne he.symm),
            findNode_modNode, if_pos rfl, hm]
          exact ⟨_, rfl⟩
      have hmemrest : P ∈ rest := by
        rcases List.mem_cons.mp hmem with h | h
        · exact absurd h.symm hnidP
        · exact h
      exact ih _ hmemrest hfP2 hlP hNew2

theorem redistStep_keeps_other (hasher : String → Nat) (newId : String)
    (oldRing newRing : List (Token × String))
    (acc : List (String × KVNode.Node)) (nid k X : String) (hX : X ≠ newId)
    (hnew : ConsistentHash.getNode newRing (hasher k % M32) ≠ newId)
    (h : ∃ n, findNode acc X = some n ∧
      (StorageEngine.lookupA n.storage.data k).isSome = true) :
    ∃ n2, findNode (redistStep hasher newId oldRing newRing acc nid) X =
        some n2 ∧ (StorageEngine.lookupA n2.storage.data k).isSome = true := by
  rcases redistStep_cases hasher newId oldRing newRing acc nid with
    hcase | ⟨n, hne, hfn, hmn, hcase⟩
  · rw [hcase]
    exact h
  · rcases h with ⟨nX, hfX, hlX⟩
    by_cases hXnid : X = nid
    · subst hXnid
      have hnn : n = nX := by
        rw [hfn] at hfX
        exact Option.some.inj hfX
      subst hnn
      rw [hcase, findNode_modNode, if_pos rfl, findNode_modNode, if_neg hX, hfX]
      refine ⟨_, rfl, ?_⟩
      rw [removeBatch_data, lookupA_removeBatch]
      have hknot : k ∉ (movedOf hasher newId X oldRing newRing n).map
          Prod.fst := by
        intro hk
        rcases (mem_movedOf_keys hasher newId X oldRing newRing n k).mp hk with
          ⟨_, _, hnewk⟩
        exact hnew hnewk
      rw [if_neg hknot]
      exact hlX
    · rw [hcase, findNode_modNode, if_neg hXnid, findNode_modNode, if_neg hX]
      exact ⟨nX, hfX, hlX⟩

theorem redist_fold_keeps_other (hasher : String → Nat) (newId : String)
    (oldRing newRing : List (Token × String)) (ids : List String)
    (k X : String) (hX : X ≠ newId)
    (hnew : ConsistentHash.getNode newRing (hasher k % M32) ≠ newId) :
    ∀ acc, (∃ n, findNode acc X = some n ∧
        (StorageEngine.lookupA n.storage.data k).isSome = true) →
      ∃ n2, findNode (ids.foldl (redistStep hasher newId oldRing newRing) acc)
          X = some n2 ∧
        (StorageEngine.lookupA n2.storage.data k).isSome = true := by
  induction ids with
  | nil => intro acc h; exact h
  | cons nid rest ih =>
    intro acc h
    rw [List.foldl_cons]
    exact ih _ (redistStep_keeps_other hasher newId oldRing newRing acc nid k X
      hX hnew h)

theorem redistStep_present (hasher : String → Nat) (newId : String)
    (oldRing newRing : List (Token × String))
    (acc : List (String × KVNode.Node)) (nid q : String)
    (h : ∃ X n2, findNode (redistStep hasher newId oldRing newRing acc nid) X =
        some n2 ∧ (StorageEngine.lookupA n2.storage.data q).isSome = true) :
    ∃ X n, findNode acc X = some n ∧
      (StorageEngine.lookupA n.storage.data q).isSome = true := by
  rcases redistStep_cases hasher newId oldRing newRing acc nid with
    hcase | ⟨n, hne, hfn, hmn, hcase⟩
  · rw [hcase] at h
    exact h
  · rcases h with ⟨X, n2, hfX, hlX⟩
    rw [hcase, findNode_modNode] at hfX
    by_cases hXnid : X = nid
    · rw [if_pos hXnid, findNode_modNode, if_neg hne, hfn] at hfX
      have hn2 : n2 = KVNode.removeBatch n
          ((movedOf hasher newId nid oldRing newRing n).map Prod.fst) := by
        simpa using hfX.symm
      rw [hn2, removeBatch_data, lookupA_removeBatch] at hlX
      by_cases hq : q ∈ (movedOf hasher newId nid oldRing newRing n).map Prod.fst
      · rw [if_pos hq] at hlX
        simp at hlX
      · rw [if_neg hq] at hlX
        exact ⟨nid, n, hfn, hlX⟩
    · rw [if_neg hXnid, findNode_modNode] at hfX
      by_cases hXnew : X = newId
      · rw [if_pos hXnew] at hfX
        rcases hm : findNode acc newId with _ | m
        · rw [hm] at hfX
          cases hfX
        · rw [hm] at hfX
          have hn2 : n2 = KVNode.putBatch m
              (movedOf hasher newId nid oldRing newRing n) := by
            simpa using hfX.symm
          by_cases hq : q ∈ (movedOf hasher newId nid oldRing newRing n).map
              Prod.fst
          · rcases (mem_movedOf_keys hasher newId nid oldRing newRing n q).mp
              hq with ⟨⟨v, hv⟩, _, _⟩
            exact ⟨nid, n, hfn, lookupA_isSome_of_mem hv⟩
          · rw [hn2, putBatch_data, lookupA_putBatch_not_mem _ _ _ hq] at hlX
            exact ⟨newId, m, hm, hlX⟩
      · rw [if_neg hXnew] at hfX
        exact ⟨X, n2, hfX, hlX⟩

theorem redist_fold_present (hasher : String → Nat) (newId : String)
    (oldRing newRing : List (Token × String)) (ids : List String) (q : String) :
    ∀ acc, (∃ X n2, findNode
        (ids.foldl (redistStep hasher newId oldRing newRing) acc) X = some n2 ∧
        (StorageEngine.lookupA n2.storage.data q).isSome = true) →
      ∃ X n, findNode acc X = some n ∧
        (StorageEngine.lookupA n.storage.data q).isSome = true := by
  induction ids with
  | nil => intro acc h; exact h
  | cons nid rest ih =>
    intro acc h
    rw [List.foldl_cons] at h
    exact redistStep_present hasher newId oldRing newRing acc nid q (ih _ h)

end DistributedKVStore

namespace DistributedKVStore

/-! ### Behaviour of the redistributeOnRemove plan execution -/

theorem plan_fold_map_fst (groups : List (String × List (String × String))) :
    ∀ ns : List (String × KVNode.Node),
      ((groups.foldl (fun ns pr => modNode ns pr.1
        (fun m => KVNode.putBatch m pr.2)) ns).map Prod.fst) = ns.map Prod.fst := by
  induction groups with
  | nil => intro ns; rfl
  | cons pr rest ih =>
    intro ns
    rw [List.foldl_cons, ih, modNode_map_fst]

theorem plan_step_keeps (ns : List (String × KVNode.Node))
    (pr : String × List (String × String)) (k X : String)
    (h : ∃ n, findNode ns X = some n ∧
      (StorageEngine.lookupA n.storage.data k).isSome = true) :
    ∃ n2, findNode (modNode ns pr.1 (fun m => KVNode.putBatch m pr.2)) X =
        some n2 ∧ (StorageEngine.lookupA n2.storage.data k).isSome = true := by
  rcases h with ⟨n, hf, hl⟩
  rw [findNode_modNode]
  by_cases hX : X = pr.1
  · rw [if_pos hX, ← hX, hf]
    refine ⟨_, rfl, ?_⟩
    rw [putBatch_data]
    by_cases hk : k ∈ pr.2.map Prod.fst
    · exact lookupA_putBatch_mem _ _ _ hk
    · rw [lookupA_putBatch_not_mem _ _ _ hk]
      exact hl
  · rw [if_neg hX]
    exact ⟨n, hf, hl⟩

theorem plan_fold_keeps (groups : List (String × List (String × String)))
    (k X : String) :
    ∀ ns, (∃ n, findNode ns X = some n ∧
        (StorageEngine.lookupA n.storage.data k).isSome = true) →
      ∃ n2, findNode (groups.foldl (fun ns pr => modNode ns pr.1
          (fun m => KVNode.putBatch m pr.2)) ns) X = some n2 ∧
        (StorageEngine.lookupA n2.storage.data k).isSome = true := by
  induction groups with
  | nil => intro ns h; exact h
  | cons pr rest ih =>
    intro ns h
    rw [List.foldl_cons]
    exact ih _ (plan_step_keeps ns pr k X h)

theorem plan_fold_lands (k : String) :
    ∀ (groups : List (String × List (String × String)))
      (ns : List (String × KVNode.Node)) (dest : String)
      (kvs : List (String × String)),
      (dest, kvs) ∈ groups → k ∈ kvs.map Prod.fst →
      (∃ m, findNode ns dest = some m) →
      ∃ m2, findNode (groups.foldl (fun ns pr => modNode ns pr.1
          (fun m => KVNode.putBatch m pr.2)) ns) dest = some m2 ∧
        (StorageEngine.lookupA m2.storage.data k).isSome = true := by
  intro groups
  induction groups with
  | nil => intro ns dest kvs hmem; cases hmem
  | cons pr rest ih =>
    intro ns dest kvs hmem hk hreg
    rw [List.foldl_cons]
    rcases List.mem_cons.mp hmem with heq | hmem2
    · have h1 : pr.1 = dest := by rw [← heq]
      have h2 : pr.2 = kvs := by rw [← heq]
      rcases hreg with ⟨m, hm⟩
      apply plan_fold_keeps rest k dest
      rw [findNode_modNode, h1, if_pos rfl, hm]
      refine ⟨_, rfl, ?_⟩
      rw [putBatch_data, h2]
      exact lookupA_putBatch_mem _ _ _ hk
    · apply ih _ dest kvs hmem2 hk
      rcases hreg with ⟨m, hm⟩
      rw [findNode_modNode]
      by_cases hX : dest = pr.1
      · rw [if_pos hX, ← hX, hm]
        exact ⟨_, rfl⟩
      · rw [if_neg hX]
        exact ⟨m, hm⟩

theorem plan_step_present (ns : List (String × KVNode.Node))
    (pr : String × List (String × String)) (q : String)
    (h : ∃ X n2, findNode (modNode ns pr.1
        (fun m => KVNode.putBatch m pr.2)) X = some n2 ∧
      (StorageEngine.lookupA n2.storage.data q).isSome = true) :
    (∃ X n, findNode ns X = some n ∧
      (StorageEngine.lookupA n.storage.data q).isSome = true) ∨
      q ∈ pr.2.map Prod.fst := by
  rcases h with ⟨X, n2, hfX, hlX⟩
  rw [findNode_modNode] at hfX
  by_cases hX : X = pr.1
  · rw [if_pos hX] at hfX
    rcases hm : findNode ns pr.1 with _ | m
    · rw [hm] at hfX
      cases hfX
    · rw [hm] at hfX
      have hn2 : n2 = KVNode.putBatch m pr.2 := by
        simpa using hfX.symm
      by_cases hq : q ∈ pr.2.map Prod.fst
      · right
        exact hq
      · left
        rw [hn2, putBatch_data, lookupA_putBatch_not_mem _ _ _ hq] at hlX
        exact ⟨pr.1, m, hm, hlX⟩
  · rw [if_neg hX] at hfX
    left
    exact ⟨X, n2, hfX, hlX⟩

theorem plan_fold_present (q : String) :
    ∀ (groups : List (String × List (String × String)))
      (ns : List (String × KVNode.Node)),
      (∃ X n2, findNode (groups.foldl (fun ns pr => modNode ns pr.1
          (fun m => KVNode.putBatch m pr.2)) ns) X = some n2 ∧
        (StorageEngine.lookupA n2.storage.data q).isSome = true) →
      (∃ X n, findNode ns X = some n ∧
        (StorageEngine.lookupA n.storage.data q).isSome = true) ∨
        ∃ pr ∈ groups, q ∈ pr.2.map Prod.fst := by
  intro groups
  induction groups with
  | nil => intro ns h; left; exact h
  | cons pr rest ih =>
    intro ns h
    rw [List.foldl_cons] at h
    rcases ih _ h with h2 | h2
    · rcases plan_step_present ns pr q h2 with h3 | h3
      · left
        exact h3
      · right
        exact ⟨pr, List.mem_cons_self pr rest, h3⟩
    · rcases h2 with ⟨pr2, hpr2, hq⟩
      right
      exact ⟨pr2, List.mem_cons_of_mem pr hpr2, hq⟩

theorem groupTargets_complete (plan : List (String × String × String))
    (dest k v : String) (h : (dest, k, v) ∈ plan) :
    ∃ kvs, (dest, kvs) ∈ groupTargets plan ∧ k ∈ kvs.map Prod.fst := by
  refine ⟨(plan.filter (fun e => decide (e.1 = dest))).map Prod.snd, ?_, ?_⟩
  · rw [groupTargets]
    apply List.mem_map.mpr
    refine ⟨dest, ?_, rfl⟩
    rw [List.mem_dedup]
    exact List.mem_map.mpr ⟨(dest, k, v), h, rfl⟩
  · apply List.mem_map.mpr
    exact ⟨(k, v), List.mem_map.mpr
      ⟨(dest, k, v), List.mem_filter.mpr ⟨h, by simp⟩, rfl⟩, rfl⟩

theorem groupTargets_sound (plan : List (String × String × String))
    (pr : String × List (String × String)) (k : String)
    (hpr : pr ∈ groupTargets plan) (hk : k ∈ pr.2.map Prod.fst) :
    ∃ v, (pr.1, k, v) ∈ plan := by
  rw [groupTargets] at hpr
  rcases List.mem_map.mp hpr with ⟨dest, _, rfl⟩
  rcases List.mem_map.mp hk with ⟨kv, hkv, rfl⟩
  rcases List.mem_map.mp hkv with ⟨e, he, rfl⟩
  have hmem : e ∈ plan := List.mem_of_mem_filter he
  have hdest : e.1 = dest := by simpa using List.of_mem_filter he
  refine ⟨e.2.2, ?_⟩
  have : e = (dest, e.2.1, e.2.2) := by
    rw [← hdest]
  rw [← this]
  exact hmem

theorem mem_removePlan_intro (hasher : String → Nat) (vn : Nat) (c : Cluster)
    (id : String) (dep : KVNode.Node) (kv : String × String)
    (hkv : kv ∈ dep.storage.data)
    (hne : ConsistentHash.getNode (ConsistentHash.removeNode hasher vn c.ring id)
      (hasher kv.1 % M32) ≠ "")
    (hreg : (c.nodes.find? (fun p => decide (p.1 = ConsistentHash.getNode
      (ConsistentHash.removeNode hasher vn c.ring id)
      (hasher kv.1 % M32)))).isSome = true) :
    (ConsistentHash.getNode (ConsistentHash.removeNode hasher vn c.ring id)
      (hasher kv.1 % M32), kv.1, kv.2) ∈ removePlan hasher vn c id dep := by
  rw [removePlan]
  apply List.mem_filterMap.mpr
  refine ⟨kv, hkv, ?_⟩
  rw [if_pos ⟨hne, hreg⟩]

theorem mem_removePlan_sound (hasher : String → Nat) (vn : Nat) (c : Cluster)
    (id : String) (dep : KVNode.Node) (dest k v : String)
    (h : (dest, k, v) ∈ removePlan hasher vn c id dep) :
    (k, v) ∈ dep.storage.data := by
  rw [removePlan] at h
  rcases List.mem_filterMap.mp h with ⟨kv, hkv, hf⟩
  by_cases hcond : ConsistentHash.getNode
      (ConsistentHash.removeNode hasher vn c.ring id) (hasher kv.1 % M32) ≠ "" ∧
      (c.nodes.find? (fun p => decide (p.1 = ConsistentHash.getNode
        (ConsistentHash.removeNode hasher vn c.ring id)
        (hasher kv.1 % M32)))).isSome = true
  · rw [if_pos hcond] at hf
    have h1 : kv.1 = k := congrArg (fun x => x.2.1) (Option.some.inj hf)
    have h2 : kv.2 = v := congrArg (fun x => x.2.2) (Option.some.inj hf)
    rw [← h1, ← h2]
    simpa using hkv
  · rw [if_neg hcond] at hf
    cases hf

end DistributedKVStore

namespace DistributedKVStore

/-! ### Coverage predicates: basic consequences -/

theorem holdsKeyB_spec {ns : List (String × KVNode.Node)} {nid k : String}
    (h : holdsKeyB ns nid k = true) :
    ∃ n, findNode ns nid = some n ∧
      (StorageEngine.lookupA n.storage.data k).isSome = true := by
  rw [holdsKeyB] at h
  rcases hf : findNode ns nid with _ | n
  · rw [hf] at h
    simp at h
  · rw [hf] at h
    exact ⟨n, rfl, h⟩

theorem holdsKeyB_intro {ns : List (String × KVNode.Node)} {nid k : String}
    {n : KVNode.Node} (hf : findNode ns nid = some n)
    (hl : (StorageEngine.lookupA n.storage.data k).isSome = true) :
    holdsKeyB ns nid k = true := by
  rw [holdsKeyB, hf]
  exact hl

theorem holdsKeyB_key_registered {ns : List (String × KVNode.Node)}
    {nid k : String} (h : holdsKeyB ns nid k = true) :
    nid ∈ ns.map Prod.fst := by
  rcases holdsKeyB_spec h with ⟨n, hf, _⟩
  simpa using List.mem_map_of_mem Prod.fst (findNode_mem hf)

theorem ring_ne_nil_of_holds {hasher : String → Nat} {c : Cluster} {k : String}
    (hnoempty : "" ∉ c.nodes.map Prod.fst)
    (h : holdsKeyB c.nodes
      (ConsistentHash.getNode c.ring (hasher k % M32)) k = true) :
    c.ring ≠ [] := by
  intro hnil
  rw [hnil] at h
  exact hnoempty (holdsKeyB_key_registered h)

theorem primCov_respCov (hasher : String → Nat) (c : Cluster) (hrf : 1 ≤ c.rf)
    (hnoempty : "" ∉ c.nodes.map Prod.fst) (hprim : PrimCov hasher c) :
    RespCov hasher c := by
  intro p hp kv hkv
  have hhold := hprim p hp kv hkv
  have hrne : c.ring ≠ [] := ring_ne_nil_of_holds hnoempty hhold
  exact ⟨_, ConsistentHash.getNode_mem_getNodes _ _ _ hrne hrf, hhold⟩

theorem not_mem_keys_of_fresh {ns : List (String × KVNode.Node)} {id : String}
    (hfresh : (ns.find? (fun p => decide (p.1 = id))).isSome = false) :
    id ∉ ns.map Prod.fst := by
  intro hmem
  rcases List.mem_map.mp hmem with ⟨p, hp, hp1⟩
  have hnone : ns.find? (fun p => decide (p.1 = id)) = none := by
    rcases hf : ns.find? (fun p => decide (p.1 = id)) with _ | e
    · exact hf
    · rw [hf] at hfresh
      simp at hfresh
  have := List.find?_eq_none.mp hnone p hp
  simp [hp1] at this

theorem exists_findNode_of_isSome {ns : List (String × KVNode.Node)}
    {q : String} (h : (ns.find? (fun p => decide (p.1 = q))).isSome = true) :
    ∃ n, findNode ns q = some n := by
  rcases hf : ns.find? (fun p => decide (p.1 = q)) with _ | e
  · rw [hf] at h
    simp at h
  · exact ⟨e.2, by rw [findNode, hf]; rfl⟩

/-! ### Claim C1, add side: with primary coverage before the change and a
fresh node id, every key is covered after `addNode`. -/

theorem addNode_preserves_coverage (hasher : String → Nat) (vn : Nat)
    (c : Cluster) (id : String) (hvn : 0 < vn) (hrf : 1 ≤ c.rf)
    (hnd : (c.nodes.map Prod.fst).Nodup)
    (hnoempty : "" ∉ c.nodes.map Prod.fst)
    (hprim : PrimCov hasher c)
    (hfresh : (c.nodes.find? (fun p => decide (p.1 = id))).isSome = false)
    (hfs : c.fs id = []) :
    RespCov hasher (addNode hasher vn c id) := by
  have hfid : findNode c.nodes id = none := by
    rcases hf : c.nodes.find? (fun p => decide (p.1 = id)) with _ | e
    · rw [findNode, hf]
      rfl
    · rw [hf] at hfresh
      simp at hfresh
  have hnewN : KVNode.mkNode (fileContent c id) = KVNode.mkNode [] := by
    rw [fileContent, hfid, hfs]
  have hcond : ¬ ((c.nodes.find? (fun p => decide (p.1 = id))).isSome = true) := by
    rw [hfresh]
    simp
  have hns0 : insNode c.nodes id (KVNode.mkNode (fileContent c id)) =
      c.nodes ++ [(id, KVNode.mkNode [])] := by
    rw [insNode, if_neg hcond, hnewN]
  have hpost : addNode hasher vn c id =
      { c with
        nodes := ((c.nodes ++ [(id, KVNode.mkNode [])]).map Prod.fst).foldl
          (redistStep hasher id c.ring
            (ConsistentHash.addNode hasher vn c.ring id))
          (c.nodes ++ [(id, KVNode.mkNode [])]),
        ring := ConsistentHash.addNode hasher vn c.ring id } := by
    rw [addNode, hns0]
  rw [hpost]
  intro p hp kv hkv
  have hidnot : id ∉ c.nodes.map Prod.fst := not_mem_keys_of_fresh hfresh
  have hnd0 : ((c.nodes ++ [(id, KVNode.mkNode [])]).map Prod.fst).Nodup := by
    rw [List.map_append]
    apply List.nodup_append.mpr
    refine ⟨hnd, by simp, ?_⟩
    intro a ha hb
    simp at hb
    exact hidnot (hb ▸ ha)
  have hndpost : ((((c.nodes ++ [(id, KVNode.mkNode [])]).map Prod.fst).foldl
      (redistStep hasher id c.ring
        (ConsistentHash.addNode hasher vn c.ring id))
      (c.nodes ++ [(id, KVNode.mkNode [])])).map Prod.fst).Nodup := by
    rw [redist_fold_map_fst]
    exact hnd0
  have hppost : findNode (((c.nodes ++ [(id, KVNode.mkNode [])]).map
      Prod.fst).foldl (redistStep hasher id c.ring
        (ConsistentHash.addNode hasher vn c.ring id))
      (c.nodes ++ [(id, KVNode.mkNode [])])) p.1 = some p.2 :=
    findNode_of_mem _ hndpost p hp
  have hpresent : ∃ X n, findNode (c.nodes ++ [(id, KVNode.mkNode [])]) X =
      some n ∧ (StorageEngine.lookupA n.storage.data kv.1).isSome = true :=
    redist_fold_present hasher id c.ring
      (ConsistentHash.addNode hasher vn c.ring id) _ kv.1 _
      ⟨p.1, p.2, hppost, lookupA_isSome_of_mem hkv⟩
  rcases hpresent with ⟨X, nX, hfX, hlX⟩
  have hXid : X ≠ id := by
    intro he
    subst he
    rw [findNode_append_single_self c.nodes X (KVNode.mkNode []) hfresh] at hfX
    rcases Option.some.inj hfX with rfl
    rw [show (KVNode.mkNode ([] : List Char)).storage.data = [] from rfl] at hlX
    rw [show StorageEngine.lookupA [] kv.1 = none from rfl] at hlX
    simp at hlX
  rw [findNode_append_single_ne c.nodes id _ X hXid] at hfX
  have hpair : (X, nX) ∈ c.nodes := findNode_mem hfX
  rcases mem_of_lookupA_isSome hlX with ⟨v, hv⟩
  have hhold : holdsKeyB c.nodes
      (ConsistentHash.getNode c.ring (hasher kv.1 % M32)) kv.1 :=
    hprim (X, nX) hpair (kv.1, v) hv
  have hrne : c.ring ≠ [] := ring_ne_nil_of_holds hnoempty hhold
  rcases holdsKeyB_spec hhold with ⟨nP, hfP, hlP⟩
  have hPmem : ConsistentHash.getNode c.ring (hasher kv.1 % M32) ∈
      c.nodes.map Prod.fst := holdsKeyB_key_registered hhold
  have hPid : ConsistentHash.getNode c.ring (hasher kv.1 % M32) ≠ id := by
    intro he
    exact hidnot (he ▸ hPmem)
  have hnewne : ConsistentHash.addNode hasher vn c.ring id ≠ [] :=
    ConsistentHash.addNode_ne_nil hasher vn c.ring id hvn
  have hfP0 : findNode (c.nodes ++ [(id, KVNode.mkNode [])])
      (ConsistentHash.getNode c.ring (hasher kv.1 % M32)) = some nP := by
    rw [findNode_append_single_ne c.nodes id _ _ hPid]
    exact hfP
  have hNewExists : ∃ m, findNode (c.nodes ++ [(id, KVNode.mkNode [])]) id =
      some m := ⟨KVNode.mkNode [],
        findNode_append_single_self c.nodes id (KVNode.mkNode []) hfresh⟩
  rcases ConsistentHash.getNode_addNode hasher vn c.ring id
      (hasher kv.1 % M32) with hQ | hQ
  · -- the primary is unchanged: the old holder survives on its node
    have hPin : ConsistentHash.getNode
        (ConsistentHash.addNode hasher vn c.ring id) (hasher kv.1 % M32) ≠ id := by
      rw [hQ]
      exact hPid
    have hsurvive := redist_fold_keeps_other hasher id c.ring
      (ConsistentHash.addNode hasher vn c.ring id)
      ((c.nodes ++ [(id, KVNode.mkNode [])]).map Prod.fst) kv.1
      (ConsistentHash.getNode c.ring (hasher kv.1 % M32)) hPid hPin
      (c.nodes ++ [(id, KVNode.mkNode [])]) ⟨nP, hfP0, hlP⟩
    rcases hsurvive with ⟨n2, hfn2, hln2⟩
    refine ⟨ConsistentHash.getNode c.ring (hasher kv.1 % M32), ?_, ?_⟩
    · have := ConsistentHash.getNode_mem_getNodes
        (ConsistentHash.addNode hasher vn c.ring id) (hasher kv.1 % M32)
        c.rf hnewne hrf
      rw [hQ] at this
      exact this
    · exact holdsKeyB_intro hfn2 hln2
  · -- the new node became the primary: the key was moved onto it
    have hPmemids : ConsistentHash.getNode c.ring (hasher kv.1 % M32) ∈
        (c.nodes ++ [(id, KVNode.mkNode [])]).map Prod.fst := by
      rw [List.map_append]
      exact List.mem_append_left _ hPmem
    have hland := redist_fold_lands hasher id c.ring
      (ConsistentHash.addNode hasher vn c.ring id) kv.1
      (ConsistentHash.getNode c.ring (hasher kv.1 % M32)) nP hPid rfl hQ
      ((c.nodes ++ [(id, KVNode.mkNode [])]).map Prod.fst)
      (c.nodes ++ [(id, KVNode.mkNode [])]) hPmemids hfP0 hlP hNewExists
    rcases hland with ⟨m2, hfm2, hlm2⟩
    refine ⟨id, ?_, ?_⟩
    · have := ConsistentHash.getNode_mem_getNodes
        (ConsistentHash.addNode hasher vn c.ring id) (hasher kv.1 % M32)
        c.rf hnewne hrf
      rw [hQ] at this
      exact this
    · exact holdsKeyB_intro hfm2 hlm2

end DistributedKVStore

namespace DistributedKVStore

theorem findNode_filter_ne (ns : List (String × KVNode.Node)) (id q : String)
    (hq : q ≠ id) :
    findNode (ns.filter (fun p => decide (p.1 ≠ id))) q = findNode ns q := by
  rw [findNode, findNode, find?_filter_subset]
  intro x hx
  simp at hx ⊢
  rw [hx]
  exact hq

/-! ### Claim C1, remove side -/

theorem removeNode_preserves_coverage (hasher : String → Nat) (vn : Nat)
    (c : Cluster) (id : String) (hrf : 1 ≤ c.rf)
    (hnd : (c.nodes.map Prod.fst).Nodup)
    (hre : ∀ e ∈ c.ring,
      (c.nodes.find? (fun p => decide (p.1 = e.2))).isSome = true ∧
        e.1 ∈ ConsistentHash.nodeTokens hasher vn e.2)
    (hnoempty : "" ∉ c.nodes.map Prod.fst)
    (hprim : PrimCov hasher c)
    (htok : ∀ e ∈ c.ring, e.1 ∈ ConsistentHash.nodeTokens hasher vn id →
      e.2 = id)
    (hhastok : ∀ p ∈ c.nodes, ∃ t, (t, p.1) ∈ c.ring) :
    RespCov hasher (removeNode hasher vn c id) := by
  rcases hdep : findNode c.nodes id with _ | dep
  · have hnoop : removeNode hasher vn c id = c := by
      rw [removeNode, hdep]
    rw [hnoop]
    exact primCov_respCov hasher c hrf hnoempty hprim
  · have hfilter : ConsistentHash.removeNode hasher vn c.ring id =
        c.ring.filter (fun e => decide (e.2 ≠ id)) :=
      ConsistentHash.removeNode_eq_filter_value hasher vn c.ring id
        (fun e he => (hre e he).2) htok
    have hpost : removeNode hasher vn c id =
        { nodes := ((groupTargets (removePlan hasher vn c id dep)).foldl
            (fun ns pr => modNode ns pr.1 (fun m => KVNode.putBatch m pr.2))
            c.nodes).filter (fun p => decide (p.1 ≠ id)),
          ring := ConsistentHash.removeNode hasher vn c.ring id,
          rf := c.rf,
          fs := fun x => if x = id then dep.storage.wal else c.fs x } := by
      rw [removeNode, hdep]
    rw [hpost]
    intro p hp kv hkv
    have hp1 : p ∈ (groupTargets (removePlan hasher vn c id dep)).foldl
        (fun ns pr => modNode ns pr.1 (fun m => KVNode.putBatch m pr.2))
        c.nodes ∧ p.1 ≠ id := by
      have := List.mem_filter.mp hp
      exact ⟨this.1, by simpa using this.2⟩
    have hnd1 : (((groupTargets (removePlan hasher vn c id dep)).foldl
        (fun ns pr => modNode ns pr.1 (fun m => KVNode.putBatch m pr.2))
        c.nodes).map Prod.fst).Nodup := by
      rw [plan_fold_map_fst]
      exact hnd
    have hfp : findNode ((groupTargets (removePlan hasher vn c id dep)).foldl
        (fun ns pr => modNode ns pr.1 (fun m => KVNode.putBatch m pr.2))
        c.nodes) p.1 = some p.2 := findNode_of_mem _ hnd1 p hp1.1
    have hpre : ∃ X n, findNode c.nodes X = some n ∧
        (StorageEngine.lookupA n.storage.data kv.1).isSome = true := by
      rcases plan_fold_present kv.1 (groupTargets (removePlan hasher vn c id
          dep)) c.nodes ⟨p.1, p.2, hfp, lookupA_isSome_of_mem hkv⟩ with h | h
      · exact h
      · rcases h with ⟨pr, hpr, hq⟩
        rcases groupTargets_sound (removePlan hasher vn c id dep) pr kv.1 hpr
          hq with ⟨v, hvplan⟩
        have hv : (kv.1, v) ∈ dep.storage.data :=
          mem_removePlan_sound hasher vn c id dep pr.1 kv.1 v hvplan
        exact ⟨id, dep, hdep, @lookupA_isSome_of_mem dep.storage.data (kv.1, v) hv⟩
    rcases hpre with ⟨X, nX, hfX, hlX⟩
    rcases mem_of_lookupA_isSome hlX with ⟨v0, hv0⟩
    have hhold : holdsKeyB c.nodes
        (ConsistentHash.getNode c.ring (hasher kv.1 % M32)) kv.1 :=
      hprim (X, nX) (findNode_mem hfX) (kv.1, v0) hv0
    have hrne : c.ring ≠ [] := ring_ne_nil_of_holds hnoempty hhold
    have hp1keys : p.1 ∈ c.nodes.map Prod.fst := by
      have h2 : p.1 ∈ (((groupTargets (removePlan hasher vn c id dep)).foldl
          (fun ns pr => modNode ns pr.1 (fun m => KVNode.putBatch m pr.2))
          c.nodes).map Prod.fst) := List.mem_map_of_mem Prod.fst hp1.1
      rw [plan_fold_map_fst] at h2
      exact h2
    rcases List.mem_map.mp hp1keys with ⟨p0, hp0, hp01⟩
    rcases hhastok p0 hp0 with ⟨t, htmem⟩
    have hrmne : ConsistentHash.removeNode hasher vn c.ring id ≠ [] := by
      rw [hfilter]
      intro hnil
      have hmem2 : (t, p0.1) ∈ c.ring.filter (fun e => decide (e.2 ≠ id)) := by
        apply List.mem_filter.mpr
        refine ⟨htmem, ?_⟩
        simp only [decide_eq_true_eq]
        rw [hp01]
        exact hp1.2
      rw [hnil] at hmem2
      cases hmem2
    by_cases hPid : ConsistentHash.getNode c.ring (hasher kv.1 % M32) = id
    · rcases holdsKeyB_spec hhold with ⟨nP, hfP, hlP⟩
      have hPdep : nP = dep := by
        rw [hPid, hdep] at hfP
        exact (Option.some.inj hfP).symm
      rw [hPdep] at hlP
      rcases mem_of_lookupA_isSome hlP with ⟨v1, hv1⟩
      rcases ConsistentHash.getNode_mem_values
          (ConsistentHash.removeNode hasher vn c.ring id)
          (hasher kv.1 % M32) hrmne with ⟨e, he, hdeste⟩
      have he2 : e ∈ c.ring ∧ e.2 ≠ id := by
        rw [hfilter] at he
        exact ConsistentHash.mem_filter_value_ne c.ring id e he
      have hdestreg : (c.nodes.find? (fun q => decide (q.1 = e.2))).isSome =
          true := (hre e he2.1).1
      have hdestne : e.2 ≠ "" := by
        intro hemp
        apply hnoempty
        rcases exists_findNode_of_isSome hdestreg with ⟨n1, hn1⟩
        have := List.mem_map_of_mem Prod.fst (findNode_mem hn1)
        rw [hemp] at this
        simpa using this
      have hplanmem : (ConsistentHash.getNode
          (ConsistentHash.removeNode hasher vn c.ring id)
          (hasher kv.1 % M32), kv.1, v1) ∈ removePlan hasher vn c id dep := by
        apply mem_removePlan_intro hasher vn c id dep (kv.1, v1) hv1
        · rw [hdeste]
          exact hdestne
        · rw [hdeste]
          exact hdestreg
      rcases groupTargets_complete (removePlan hasher vn c id dep) _ kv.1 v1
        hplanmem with ⟨kvs, hgmem, hkkvs⟩
      have hdestfind : ∃ m, findNode c.nodes (ConsistentHash.getNode
          (ConsistentHash.removeNode hasher vn c.ring id)
          (hasher kv.1 % M32)) = some m := by
        rw [hdeste]
        exact exists_findNode_of_isSome hdestreg
      rcases plan_fold_lands kv.1 (groupTargets (removePlan hasher vn c id
          dep)) c.nodes _ kvs hgmem hkkvs hdestfind with ⟨m2, hfm2, hlm2⟩
      have hdestid : ConsistentHash.getNode
          (ConsistentHash.removeNode hasher vn c.ring id)
          (hasher kv.1 % M32) ≠ id := by
        rw [hdeste]
        exact he2.2
      refine ⟨ConsistentHash.getNode
        (ConsistentHash.removeNode hasher vn c.ring id)
        (hasher kv.1 % M32), ?_, ?_⟩
      · exact ConsistentHash.getNode_mem_getNodes _ _ c.rf hrmne hrf
      · apply holdsKeyB_intro _ hlm2
        rw [findNode_filter_ne _ _ _ hdestid]
        exact hfm2
    · have hQP := ConsistentHash.getNode_filter_value c.ring
        (hasher kv.1 % M32) id hrne hPid
      rcases holdsKeyB_spec hhold with ⟨nP, hfP, hlP⟩
      rcases plan_fold_keeps (groupTargets (removePlan hasher vn c id dep))
        kv.1 (ConsistentHash.getNode c.ring (hasher kv.1 % M32)) c.nodes
        ⟨nP, hfP, hlP⟩ with ⟨n2, hfn2, hln2⟩
      have hQeq : ConsistentHash.getNode
          (ConsistentHash.removeNode hasher vn c.ring id)
          (hasher kv.1 % M32) =
          ConsistentHash.getNode c.ring (hasher kv.1 % M32) := by
        rw [hfilter]
        exact hQP.1
      refine ⟨ConsistentHash.getNode c.ring (hasher kv.1 % M32), ?_, ?_⟩
      · rw [← hQeq]
        exact ConsistentHash.getNode_mem_getNodes _ _ c.rf hrmne hrf
      · apply holdsKeyB_intro _ hln2
        rw [findNode_filter_ne _ _ _ hPid]
        exact hfn2

end DistributedKVStore

namespace DistributedKVStore

/-- C1: After addNode(id) or removeNode(id) completes, every key present in
    any node's storage index is held by at least one of the nodes that
    getNodes returns for it on the post-change ring. As stated over all
    reachable pre-states this fails (see the counterexample: a key held
    only by a stale non-primary replica is orphaned by addNode, because
    redistributeOnAdd only moves keys stored on their current primary).
    Amended: the property holds for every well-formed pre-state satisfying
    the primary-coverage discipline PrimCov (every present key is held by
    its current primary); under that precondition both addNode of a fresh
    id and removeNode of any id preserve responsible-set coverage. -/
theorem membership_change_preserves_coverage (hasher : String → Nat)
    (vn : Nat) (c : Cluster) (idA idR : String) (hvn : 0 < vn)
    (hrf : 1 ≤ c.rf)
    (hnd : (c.nodes.map Prod.fst).Nodup)
    (hnoempty : "" ∉ c.nodes.map Prod.fst)
    (hprim : PrimCov hasher c)
    (hfresh : (c.nodes.find? (fun p => decide (p.1 = idA))).isSome = false)
    (hfs : c.fs idA = [])
    (hre : ∀ e ∈ c.ring,
      (c.nodes.find? (fun p => decide (p.1 = e.2))).isSome = true ∧
        e.1 ∈ ConsistentHash.nodeTokens hasher vn e.2)
    (htok : ∀ e ∈ c.ring, e.1 ∈ ConsistentHash.nodeTokens hasher vn idR →
      e.2 = idR)
    (hhastok : ∀ p ∈ c.nodes, ∃ t, (t, p.1) ∈ c.ring) :
    RespCov hasher (addNode hasher vn c idA) ∧
      RespCov hasher (removeNode hasher vn c idR) :=
  ⟨addNode_preserves_coverage hasher vn c idA hvn hrf hnd hnoempty hprim
      hfresh hfs,
    removeNode_preserves_coverage hasher vn c idR hrf hnd hre hnoempty hprim
      htok hhastok⟩

instance respCovDec (hasher : String → Nat) (c : Cluster) :
    Decidable (RespCov hasher c) :=
  inferInstanceAs (Decidable (∀ p ∈ c.nodes, ∀ kv ∈ p.2.storage.data,
    ∃ nid ∈ ConsistentHash.getNodes c.ring (hasher kv.1 % M32) c.rf,
      holdsKeyB c.nodes nid kv.1 = true))

instance primCovDec (hasher : String → Nat) (c : Cluster) :
    Decidable (PrimCov hasher c) :=
  inferInstanceAs (Decidable (∀ p ∈ c.nodes, ∀ kv ∈ p.2.storage.data,
    holdsKeyB c.nodes (ConsistentHash.getNode c.ring (hasher kv.1 % M32))
      kv.1 = true))

/-- Concrete hasher for the C1 scenarios: one virtual-node token per id
    ("A"→10, "B"→30, "C"→20) and key "k" hashes to 0. -/
def hasherW : String → Nat := fun s =>
  if s = "A0" then 10 else if s = "B0" then 30 else
    if s = "C0" then 20 else if s = "k" then 0 else 99

/-- Pre-state for the C1 counterexample: key "k" (primary "A") is held
    only by the stale non-primary replica "B". -/
def preC : Cluster :=
  { nodes := [("A", KVNode.mkNode []),
      ("B", KVNode.put (KVNode.mkNode []) "k" "v")],
    ring := [(10, "A"), (30, "B")],
    rf := 2,
    fs := fun _ => [] }

/-- C1 counterexample: the pre-state satisfies the claimed coverage
    property, yet after addNode("C") the key "k" held only by the stale
    replica "B" is no longer held by any responsible node: the new node
    "C" displaces "B" from responsible("k", 2), and redistributeOnAdd did
    not move "k" because its old primary "A" never stored it. -/
theorem addNode_respCoverage_cex :
    RespCov hasherW preC ∧
      ¬ RespCov hasherW (addNode hasherW 1 preC "C") := by
  decide

/-- Well-formed pre-state satisfying PrimCov: key "k" is held by its
    primary "A". -/
def preW : Cluster :=
  { nodes := [("A", KVNode.put (KVNode.mkNode []) "k" "v"),
      ("B", KVNode.mkNode [])],
    ring := [(10, "A"), (30, "B")],
    rf := 2,
    fs := fun _ => [] }

/-- Witness for C1 amended: the concrete cluster preW satisfies every
    hypothesis, so adding fresh node "C" and removing node "B" both
    preserve responsible-set coverage. -/
theorem membership_change_preserves_coverage_witness :
    RespCov hasherW (addNode hasherW 1 preW "C") ∧
      RespCov hasherW (removeNode hasherW 1 preW "B") :=
  membership_change_preserves_coverage hasherW 1 preW "C" "B"
    (by decide) (by decide) (by decide) (by decide) (by decide) (by decide)
    rfl (by decide) (by decide)
    (by
      intro p hp
      rcases List.mem_cons.mp hp with h | hp2
      · subst h
        exact ⟨10, by decide⟩
      · rcases List.mem_cons.mp hp2 with h | h3
        · subst h
          exact ⟨30, by decide⟩
        · cases h3)

end DistributedKVStore
